import Mathlib

/-!
Shallow embedding of the dungeon-generation core of `MarchIntoTheDark.py`
(the room-type registry with its weighting mechanism, CPython's
`random.choices` weighted selection, the incremental growth algorithm of
`Dungeon.__init__`, the distance bookkeeping, and the dead-end assignment
pass), together with theorems checking the specification's claims against it.

Modelling conventions:
* Python dicts are modelled as insertion-ordered association lists:
  `dictSet` replaces the value of an existing key in place and appends new
  keys at the end, `dictGet?` finds the first (hence only) match.  This
  matches CPython's insertion-ordered dict semantics.
* Python floats are modelled as `Rat`.  The generation core only evaluates,
  adds, multiplies and compares weights; every fact proved here depends only
  on sign/order properties that IEEE arithmetic shares on these operations.
* The random sources (`random.shuffle`, `random.choice`, `random.randint`,
  the uniform variate inside `random.choices`) are modelled as explicit
  adversarial inputs: a shuffled list is an input constrained to be a
  permutation, `choice` receives the chosen index, `randint(2, 4)` receives
  a draw mapped onto `{2, 3, 4}`, and each `choices` call receives the
  `random.random()` variate in `[0, 1)`.
* Raising an exception is modelled by `Except PyErr` (or by `Option` for
  code paths the program only reaches with valid random data).
-/

namespace MITD

/-- Grid coordinates; Python ints are unbounded, so plain `Int`. -/
abbrev Coord := Int × Int

/-- Display colors (RGB or RGBA int tuples); identity-only for generation. -/
abbrev Color := List Int

/-- `dirNumToVector` from the source; `none` models the `ValueError` raise
for a direction number outside `0..3`. -/
def dirNumToVector : Nat → Option Coord
  | 0 => some (0, 1)
  | 1 => some (1, 0)
  | 2 => some (0, -1)
  | 3 => some (-1, 0)
  | _ => none

/-- The exception constructors the embedded code can raise.  `unknownType`
models the `KeyError` from `RoomType._listAll[name]` (the spec's
`UnknownTypeError`), `keyError` the `KeyError` from `RoomType._weights[t]`,
`noEligibleType` the `ValueError` raised by `random.choices` when the total
weight is not positive (the spec's `NoEligibleTypeError`), and `indexError`
the `IndexError` from indexing an empty list. -/
inductive PyErr where
  | unknownType
  | noEligibleType
  | keyError
  | indexError
deriving DecidableEq, Repr

/-- A registered room type: its unique name and display color.  (Weight
functions are kept in the registry's `weights` table, as in the source.) -/
structure RoomType where
  name : String
  color : Color
deriving DecidableEq, Repr

/-- The running occurrence counts `Dungeon.roomTypes` (a Python dict). -/
abbrev OccCounts := List (RoomType × Nat)

/-- A weight function: `(type, distanceFromEntrance, occurrenceCounts,
totalDungeonSize) → float`. -/
abbrev WeightFn := RoomType → Nat → OccCounts → Nat → Rat

/-- CPython ordered-dict write: replace in place, or append a new key. -/
def dictSet [DecidableEq κ] (d : List (κ × α)) (k : κ) (v : α) : List (κ × α) :=
  match d with
  | [] => [(k, v)]
  | (k', v') :: rest => if k' = k then (k, v) :: rest else (k', v') :: dictSet rest k v

/-- CPython dict read (first, hence only, binding of the key). -/
def dictGet? [DecidableEq κ] (d : List (κ × α)) (k : κ) : Option α :=
  (d.find? (fun p => decide (p.1 = k))).map (·.2)

/-- The class-level registry state of `RoomType` (`_listAll`, `_listSpecial`,
`_weights`), made explicit. -/
structure Registry where
  listAll : List (String × RoomType)
  listSpecial : List (String × RoomType)
  weights : List (RoomType × WeightFn)

/-- The empty registry (fresh class state). -/
def Registry.empty : Registry := ⟨[], [], []⟩

/-- `RoomType.__init__`: create the type and store it in `_listAll` (and in
`_listSpecial` when `special`).  Note the source performs a plain dict write:
an existing name is silently overwritten, no error is ever raised. -/
def Registry.register (reg : Registry) (name : String) (color : Color)
    (special : Bool) : Registry × RoomType :=
  let t : RoomType := ⟨name, color⟩
  ({ listAll := dictSet reg.listAll name t
     listSpecial := if special then dictSet reg.listSpecial name t else reg.listSpecial
     weights := reg.weights }, t)

/-- `RoomType.getType`: `_listAll[name]` with `KeyError` on a missing name. -/
def Registry.getType (reg : Registry) (name : String) : Except PyErr RoomType :=
  match dictGet? reg.listAll name with
  | some t => .ok t
  | none => .error .unknownType

/-- `RoomType.addWeight`: look the name up in `_listAll` (raising on a missing
name) and store the function in `_weights`.  The source never checks whether
the type was registered as special. -/
def Registry.addWeight (reg : Registry) (roomType : String) (weight : WeightFn) :
    Except PyErr Registry :=
  match dictGet? reg.listAll roomType with
  | none => .error .unknownType
  | some t => .ok { reg with weights := dictSet reg.weights t weight }

/-- Rational addition, written out on numerators and denominators so that it
evaluates inside the kernel; `ratAdd_eq_add` proves it equal to `Rat`'s
`+` (which is `irreducible` and would block `decide`-checked witnesses). -/
def ratAdd (a b : Rat) : Rat :=
  mkRat (a.num * b.den + b.num * a.den) (a.den * b.den)

/-- Rational multiplication, kernel-computable; equal to `Rat`'s `*`
(`ratMul_eq_mul`). -/
def ratMul (a b : Rat) : Rat :=
  mkRat (a.num * b.num) (a.den * b.den)

theorem ratAdd_eq_add (a b : Rat) : ratAdd a b = a + b :=
  (Rat.add_def' a b).symm

theorem ratMul_eq_mul (a b : Rat) : ratMul a b = a * b := by
  rw [Rat.mul_def, Rat.normalize_eq_mkRat]; rfl

/-- Cumulative sums, i.e. `itertools.accumulate(weights)` inside
`random.choices`. -/
def cumFrom (acc : Rat) : List Rat → List Rat
  | [] => []
  | w :: ws => ratAdd acc w :: cumFrom (ratAdd acc w) ws

/-- `cum_weights = list(accumulate(weights))`. -/
def cumList (ws : List Rat) : List Rat := cumFrom 0 ws

/-- The loop body of CPython's `bisect.bisect_right`, with the explicit fuel
`hi - lo`: each iteration strictly shrinks the bracket, so `hi - lo` steps
always finish the search (see `bisectAux_spec`). -/
def bisectAux (a : List Rat) (x : Rat) : Nat → Nat → Nat → Nat
  | 0, lo, _ => lo
  | fuel + 1, lo, hi =>
    if lo < hi then
      let mid := (lo + hi) / 2
      if x < a.getD mid 0 then bisectAux a x fuel lo mid
      else bisectAux a x fuel (mid + 1) hi
    else lo

/-- `bisect.bisect_right(a, x, lo, hi)` as called by `random.choices`. -/
def bisectRight (a : List Rat) (x : Rat) (lo hi : Nat) : Nat :=
  bisectAux a x (hi - lo) lo hi

/-- `random.choices(population, weights, k=1)[0]`, with `u` the
`random.random()` variate: build the cumulative weights, raise `IndexError`
when they are empty (`cum_weights[-1]` on `[]`), raise the "total of weights
must be greater than zero" `ValueError` (modelled as `noEligibleType`) when
the total is not positive, and otherwise return
`population[bisect_right(cum_weights, u * total, 0, len(population) - 1)]`. -/
def choicesW (pop : List α) (ws : List Rat) (u : Rat) : Except PyErr α :=
  let cw := cumList ws
  match cw.getLast? with
  | none => .error .indexError
  | some total =>
    if total ≤ 0 then .error .noEligibleType
    else
      match pop.get? (bisectRight cw (ratMul u total) 0 (pop.length - 1)) with
      | none => .error .indexError
      | some x => .ok x

/-- Worker for the dict comprehension in `RoomType.getRandomType`: walk the
special types in order, look each one's weight function up in `_weights`
(raising `KeyError` on a miss) and record the evaluated weight in the
accumulated dict. -/
def evalWeightsGo (reg : Registry) (distance : Nat) (numberOcc : OccCounts)
    (size : Nat) : List RoomType → List (RoomType × Rat) →
    Except PyErr (List (RoomType × Rat))
  | [], acc => .ok acc
  | t :: ts, acc =>
    match dictGet? reg.weights t with
    | none => .error .keyError
    | some f =>
      evalWeightsGo reg distance numberOcc size ts
        (dictSet acc t (f t distance numberOcc size))

/-- The dict comprehension in `RoomType.getRandomType`:
`{t: _weights[t](t, distance, numberOcc, size) for t in _listSpecial.values()}`. -/
def evalWeights (reg : Registry) (distance : Nat) (numberOcc : OccCounts)
    (size : Nat) : Except PyErr (List (RoomType × Rat)) :=
  evalWeightsGo reg distance numberOcc size (reg.listSpecial.map (·.2)) []

/-- `RoomType.getRandomType`: evaluate every special type's weight and pick
one with `random.choices`. -/
def Registry.getRandomType (reg : Registry) (distance : Nat)
    (numberOcc : OccCounts) (size : Nat) (u : Rat) : Except PyErr RoomType :=
  match evalWeights reg distance numberOcc size with
  | .error e => .error e
  | .ok ws => choicesW (ws.map (·.1)) (ws.map (·.2)) u

/-- A `Room`: type, grid position, cached neighbor count and cached distance
from the entrance. -/
structure Room where
  type : RoomType
  x : Int
  y : Int
  neighborCount : Nat
  distanceFromEntrance : Nat
deriving DecidableEq, Repr

/-- A room's grid position. -/
def Room.pos (r : Room) : Coord := (r.x, r.y)

/-- Membership test / lookup in `Dungeon.rooms` by coordinate.  The dict is
modelled as the list of rooms in insertion order (keys are the positions,
which stay unique throughout generation). -/
def findRoom (rooms : List Room) (c : Coord) : Option Room :=
  rooms.find? (fun r => decide (r.x = c.1 ∧ r.y = c.2))

/-- `(c) in self.rooms`. -/
def occupiedB (rooms : List Room) (c : Coord) : Bool :=
  (findRoom rooms c).isSome

/-- The four cardinal unit vectors, in the order `range(4)` produces them. -/
def dirVectors : List Coord := (List.range 4).filterMap dirNumToVector

/-- The list built by
`[self.rooms[nX+x, nY+y] for x, y in (dirNumToVector(d) for d in range(4))
if (nX+x, nY+y) in self.rooms]`. -/
def neighborsOf (rooms : List Room) (c : Coord) : List Room :=
  dirVectors.filterMap (fun v => findRoom rooms (c.1 + v.1, c.2 + v.2))

/-- Number of occupied cells among the four grid neighbors of `c`. -/
def nbrCount (rooms : List Room) (c : Coord) : Nat :=
  (neighborsOf rooms c).length

/-- `randint(2, 4)`: the draw `k` is mapped onto the range `{2, 3, 4}`. -/
def randint2to4 (k : Nat) : Nat := 2 + k % 3

/-- The seed step of `Dungeon.__init__` (lines 133-153): the entrance at
`(0, 0)` followed by one basic room in each of the first `b` shuffled
directions, each with `neighborCount = 1` and `distanceFromEntrance = 1`;
the entrance's `neighborCount` is set to `b` and its distance stays `0`. -/
def initRooms (basic : RoomType) (seedDirs : List Nat) (b : Nat) : List Room :=
  ⟨basic, 0, 0, b, 0⟩ ::
    ((seedDirs.take b).filterMap dirNumToVector).map
      (fun v => ⟨basic, v.1, v.2, 1, 1⟩)

/-- `min([r.distanceFromEntrance for r in neighbors])`; the `[]` case is the
`ValueError` of Python's `min`, unreachable because the caller guards with
`len(neighbors) == 1`. -/
def minDistOf (nbrs : List Room) : Nat :=
  match nbrs.map (·.distanceFromEntrance) with
  | [] => 0
  | d :: ds => ds.foldl min d

/-- One room's view of `room.neighborCount += 1` applied to every room in
`neighbors`: `r` is incremented exactly when it is one of the neighbors
(rooms are identified by their position, which is unique in a dungeon). -/
def bumpIfNbr (nbrs : List Room) (r : Room) : Room :=
  if ∃ nb ∈ nbrs, nb.x = r.x ∧ nb.y = r.y then
    { r with neighborCount := r.neighborCount + 1 }
  else r

/-- `for room in neighbors: room.neighborCount += 1`. -/
def bumpNeighbors (rooms : List Room) (nbrs : List Room) : List Room :=
  rooms.map (bumpIfNbr nbrs)

/-- Acceptance of a candidate cell (lines 176-190): create the new basic room
with `neighborCount = 1` and `distanceFromEntrance = min(neighbor distances)
+ 1`, bump each neighbor's count, and append the room to the dict. -/
def addRoom (basic : RoomType) (rooms : List Room) (c : Coord)
    (nbrs : List Room) : List Room :=
  bumpNeighbors rooms nbrs ++ [⟨basic, c.1, c.2, 1, minDistOf nbrs + 1⟩]

/-- The inner `for direction in directionList` loop (lines 166-190): try each
direction in the shuffled order; accept the first candidate cell that is
unoccupied and would have exactly one neighbor.  `none` means every direction
was rejected (the step is abandoned with no mutation).  An out-of-range
direction number would raise in the source; generation only ever passes
`0..3`, and here such a number is skipped. -/
def tryPlace (basic : RoomType) (rooms : List Room) (base : Room) :
    List Nat → Option (List Room)
  | [] => none
  | d :: ds =>
    match dirNumToVector d with
    | none => tryPlace basic rooms base ds
    | some v =>
      let c : Coord := (base.x + v.1, base.y + v.2)
      let nbrs := neighborsOf rooms c
      if nbrs.length = 1 ∧ findRoom rooms c = none then
        some (addRoom basic rooms c nbrs)
      else
        tryPlace basic rooms base ds

/-- One iteration of the `while i < size` loop: `choice` picks index `k` into
`list(self.rooms.values())[1:]` (the source never passes an out-of-range
index; `none` covers that junk case as a rejected step) and the shuffled
direction list `ds` is tried. -/
def growStep (basic : RoomType) (rooms : List Room) (k : Nat) (ds : List Nat) :
    Option (List Room) :=
  match (rooms.drop 1).get? k with
  | none => none
  | some base => tryPlace basic rooms base ds

/-- The `while i < size` loop (lines 155-190).  Each iteration consumes one
random draw from `attempts` (the `choice` index and the shuffled direction
list); `i` counts placed non-entrance rooms and increments exactly when a
room is accepted.  `none` models a run whose random stream ends before the
dungeon is full, i.e. a run that has not completed. -/
def growLoop (basic : RoomType) (size : Nat) :
    List Room → Nat → List (Nat × List Nat) → Option (List Room)
  | rooms, i, [] => if i < size then none else some rooms
  | rooms, i, (k, ds) :: rest =>
    if i < size then
      match growStep basic rooms k ds with
      | some rooms2 => growLoop basic size rooms2 (i + 1) rest
      | none => growLoop basic size rooms i rest
    else some rooms

/-- The states visited by the `while` loop, starting state included; used to
express "at every point during generation". -/
def growTrace (basic : RoomType) (size : Nat) :
    List Room → Nat → List (Nat × List Nat) → List (List Room)
  | rooms, _, [] => [rooms]
  | rooms, i, (k, ds) :: rest =>
    if i < size then
      match growStep basic rooms k ds with
      | some rooms2 => rooms :: growTrace basic size rooms2 (i + 1) rest
      | none => rooms :: growTrace basic size rooms i rest
    else [rooms]

/-- One room's view of `room.type = t` applied to the room at position `p`. -/
def setTypeIf (p : Coord) (t : RoomType) (r : Room) : Room :=
  if r.x = p.1 ∧ r.y = p.2 then { r with type := t } else r

/-- `room.type = t` on the room at position `p` (`self.rooms[p].type = t`,
or the mutation of a captured `Room` object, which is the room stored at that
position). -/
def setTypeAt (rooms : List Room) (p : Coord) (t : RoomType) : List Room :=
  rooms.map (setTypeIf p t)

/-- Stable ascending insertion for `sortByDist`: an element is inserted
before the first element whose key is not smaller, so elements with equal
keys keep their original relative order. -/
def insertByDist (r : Room) : List Room → List Room
  | [] => [r]
  | s :: ss =>
    if r.distanceFromEntrance ≤ s.distanceFromEntrance then r :: s :: ss
    else s :: insertByDist r ss

/-- `deadEnds.sort(key=lambda r: r.distanceFromEntrance)`: Python `list.sort`
is a stable ascending sort by key, and any two stable sorts compute the same
function, so stable insertion sort is a faithful model. -/
def sortByDist : List Room → List Room
  | [] => []
  | r :: rs => insertByDist r (sortByDist rs)

/-- The `for room in deadEnds` assignment loop (lines 207-214): pick a
weighted-random type using the dead end's distance, the current occurrence
counts and the target size, assign it, and bump the count.  `uIdx` indexes
the stream `us` of `random.random()` variates consumed by the
`random.choices` calls. -/
def assignLoop (reg : Registry) (size : Nat) (us : Nat → Rat) :
    List Room → Nat → List Room → OccCounts →
    Except PyErr (List Room × OccCounts)
  | rooms, _, [], occ => .ok (rooms, occ)
  | rooms, uIdx, de :: rest, occ =>
    match reg.getRandomType de.distanceFromEntrance occ size (us uIdx) with
    | .error e => .error e
    | .ok t =>
      assignLoop reg size us (setTypeAt rooms (de.x, de.y) t) (uIdx + 1) rest
        (dictSet occ t ((dictGet? occ t).getD 0 + 1))

/-- Lines 192-214 of `Dungeon.__init__`: reclassify the entrance, collect the
dead ends (`neighborCount == 1`) in insertion order, sort them stably by
distance, make the last one the stairs and drop it from the list, shuffle the
rest (modelled by the index list `shufIdx`: the shuffled list is
`shufIdx.filterMap rest.get?`, a permutation of `rest` for genuine shuffle
data), then run the assignment loop starting from empty occurrence counts. -/
def finalize (reg : Registry) (size : Nat) (rooms : List Room)
    (shufIdx : List Nat) (us : Nat → Rat) :
    Except PyErr (List Room × OccCounts) :=
  match reg.getType "Entrance" with
  | .error e => .error e
  | .ok entT =>
    let r1 := setTypeAt rooms (0, 0) entT
    let deadEnds := r1.filter (fun r => decide (r.neighborCount = 1))
    let sorted := sortByDist deadEnds
    match sorted.getLast? with
    | none => .error .indexError
    | some lastDE =>
      match reg.getType "Stairs" with
      | .error e => .error e
      | .ok stT =>
        let r2 := setTypeAt r1 (lastDE.x, lastDE.y) stT
        let rest := sorted.dropLast
        let shuffled := shufIdx.filterMap rest.get?
        assignLoop reg size us r2 0 shuffled []

/-- `Dungeon.__init__(size)` end to end, over explicit random inputs:
`seedDirs` is the shuffled direction list of the seed step, `kb` the
`randint(2, 4)` draw, `attempts` the random data of the growth loop,
`shufIdx` the dead-end shuffle, and `us` the `random.choices` variates.
`none` models a growth loop that never completes. -/
def dungeonInit (reg : Registry) (basic : RoomType) (size : Nat)
    (seedDirs : List Nat) (kb : Nat) (attempts : List (Nat × List Nat))
    (shufIdx : List Nat) (us : Nat → Rat) :
    Option (Except PyErr (List Room × OccCounts)) :=
  let b := randint2to4 kb
  match growLoop basic size (initRooms basic seedDirs b) b attempts with
  | none => none
  | some rooms1 => some (finalize reg size rooms1 shufIdx us)

/-! ### The program's startup configuration

The `__main__` block registers the concrete room types and weight functions;
these are used as concrete instances in witnesses. -/

/-- Unwrap a registry operation that is known to succeed at startup. -/
def orKeep (e : Except PyErr Registry) (d : Registry) : Registry :=
  match e with
  | .ok r => r
  | .error _ => d

/-- The registry built by the `__main__` block: `Entrance`, `Stairs`, the
basic type, and the four special types with their weight functions
(`Treasury` weighs `0.5`, modelled as `mkRat 1 2`). -/
def progReg : Registry :=
  let r := Registry.empty
  let r := (r.register "Entrance" [255, 255, 0] false).1
  let r := (r.register "Stairs" [255, 0, 0] false).1
  let r := (r.register "Basic" [255, 255, 255] false).1
  let r := (r.register "Greenhouse" [0, 255, 0] true).1
  let r := orKeep (r.addWeight "Greenhouse" (fun _ _ _ _ => 1)) r
  let r := (r.register "Treasury" [0, 0, 255] true).1
  let r := orKeep (r.addWeight "Treasury" (fun _ _ _ _ => mkRat 1 2)) r
  let r := (r.register "Library" [0, 255, 255] true).1
  let r := orKeep (r.addWeight "Library" (fun _ _ _ _ => 1)) r
  let r := (r.register "Temple" [255, 0, 255] true).1
  let r := orKeep (r.addWeight "Temple" (fun _ _ _ _ => 1)) r
  r

/-- `RoomType.basicType` as set by the `__main__` block. -/
def basicT : RoomType := ⟨"Basic", [255, 255, 255]⟩

/-! ### Dictionary lemmas -/

theorem dictGet?_nil [DecidableEq κ] (k : κ) :
    dictGet? ([] : List (κ × α)) k = none := rfl

theorem dictGet?_cons [DecidableEq κ] (k' : κ) (v' : α) (rest : List (κ × α))
    (k : κ) :
    dictGet? ((k', v') :: rest) k = if k' = k then some v' else dictGet? rest k := by
  by_cases h : k' = k
  · simp only [dictGet?, if_pos h]
    rw [List.find?_cons_of_pos _ (by simp [h])]
    rfl
  · simp only [dictGet?, if_neg h]
    rw [List.find?_cons_of_neg _ (by simp [h])]

theorem dictGet?_dictSet_self [DecidableEq κ] (d : List (κ × α)) (k : κ) (v : α) :
    dictGet? (dictSet d k v) k = some v := by
  induction d with
  | nil => simp [dictSet, dictGet?_cons]
  | cons p rest ih =>
    obtain ⟨k', v'⟩ := p
    by_cases h : k' = k
    · subst h
      simp [dictSet, dictGet?_cons]
    · simp [dictSet, h, dictGet?_cons, ih]

theorem dictGet?_dictSet_ne [DecidableEq κ] (d : List (κ × α)) (k k₂ : κ) (v : α)
    (h : k₂ ≠ k) : dictGet? (dictSet d k v) k₂ = dictGet? d k₂ := by
  have hne : ¬ k = k₂ := fun h' => h h'.symm
  induction d with
  | nil =>
    simp only [dictSet, dictGet?_cons, dictGet?_nil, if_neg hne]
  | cons p rest ih =>
    obtain ⟨k', v'⟩ := p
    by_cases hk : k' = k
    · subst hk
      have hset : dictSet ((k', v') :: rest) k' v = (k', v) :: rest := by
        simp [dictSet]
      rw [hset, dictGet?_cons, dictGet?_cons, if_neg hne, if_neg hne]
    · have hset : dictSet ((k', v') :: rest) k v = (k', v') :: dictSet rest k v := by
        simp [dictSet, hk]
      rw [hset, dictGet?_cons, dictGet?_cons, ih]

theorem mem_dictSet [DecidableEq κ] (d : List (κ × α)) (k : κ) (v : α) :
    ∀ p ∈ dictSet d k v, p = (k, v) ∨ p ∈ d := by
  induction d with
  | nil => simp [dictSet]
  | cons q rest ih =>
    obtain ⟨k', v'⟩ := q
    by_cases h : k' = k
    · subst h
      simp only [dictSet, if_pos rfl]
      intro p hp
      rcases List.mem_cons.1 hp with rfl | hp'
      · exact Or.inl rfl
      · exact Or.inr (List.mem_cons_of_mem _ hp')
    · simp only [dictSet, if_neg h]
      intro p hp
      rcases List.mem_cons.1 hp with rfl | hp'
      · exact Or.inr (List.mem_cons_self _ _)
      · rcases ih p hp' with h' | h'
        · exact Or.inl h'
        · exact Or.inr (List.mem_cons_of_mem _ h')

theorem dictSet_ne_nil [DecidableEq κ] (d : List (κ × α)) (k : κ) (v : α) :
    dictSet d k v ≠ [] := by
  cases d with
  | nil => simp [dictSet]
  | cons p rest =>
    obtain ⟨k', v'⟩ := p
    by_cases h : k' = k <;> simp [dictSet, h]

/-! ### Cumulative weights and `bisect_right` -/

theorem cumFrom_length (ws : List Rat) : ∀ acc, (cumFrom acc ws).length = ws.length := by
  induction ws with
  | nil => intro acc; rfl
  | cons w ws ih => intro acc; simp [cumFrom, ih]

theorem cumFrom_ne_nil (acc w : Rat) (ws : List Rat) :
    cumFrom acc (w :: ws) ≠ [] := by
  simp [cumFrom]

theorem getLast?_cons_of_ne_nil {α : Type _} (a : α) {l : List α} (h : l ≠ []) :
    (a :: l).getLast? = l.getLast? := by
  cases l with
  | nil => exact absurd rfl h
  | cons b l' => rw [List.getLast?_cons_cons]

theorem cumFrom_getLast?_nonpos (ws : List Rat) :
    ∀ acc, acc ≤ 0 → (∀ w ∈ ws, w ≤ 0) →
      ∀ t, (cumFrom acc ws).getLast? = some t → t ≤ 0 := by
  induction ws with
  | nil =>
    intro acc _ _ t ht
    simp [cumFrom] at ht
  | cons w ws ih =>
    intro acc hacc hw t ht
    have hle : ratAdd acc w ≤ 0 := by
      rw [ratAdd_eq_add]
      exact add_nonpos hacc (hw w (List.mem_cons_self _ _))
    cases ws with
    | nil =>
      simp [cumFrom] at ht
      subst ht
      exact hle
    | cons w2 ws' =>
      rw [show cumFrom acc (w :: w2 :: ws') =
            ratAdd acc w :: cumFrom (ratAdd acc w) (w2 :: ws') from rfl,
          getLast?_cons_of_ne_nil _ (cumFrom_ne_nil _ _ _)] at ht
      exact ih (ratAdd acc w) hle (fun w' hw' => hw w' (List.mem_cons_of_mem _ hw')) t ht

theorem cumFrom_getD_succ (ws : List Rat) :
    ∀ (acc : Rat) (i : Nat), i + 1 < ws.length →
      (cumFrom acc ws).getD (i + 1) 0 =
        ratAdd ((cumFrom acc ws).getD i 0) (ws.getD (i + 1) 0) := by
  induction ws with
  | nil => intro acc i h; simp at h
  | cons w ws ih =>
    intro acc i h
    cases i with
    | zero =>
      cases ws with
      | nil => simp at h
      | cons w2 ws' => simp [cumFrom]
    | succ i' =>
      have h' : i' + 1 < ws.length := by
        simpa using Nat.lt_of_succ_lt_succ h
      simp only [cumFrom, List.getD_cons_succ]
      exact ih (ratAdd acc w) i' h'

theorem getLast?_eq_some_getD : ∀ (l : List Rat), l ≠ [] →
    l.getLast? = some (l.getD (l.length - 1) 0)
  | [a], _ => by simp
  | a :: b :: l, _ => by
    rw [List.getLast?_cons_cons]
    rw [getLast?_eq_some_getD (b :: l) (by simp)]
    simp

theorem bisectAux_spec (a : List Rat) (x : Rat) :
    ∀ (fuel lo hi : Nat), hi - lo ≤ fuel → lo ≤ hi →
      lo ≤ bisectAux a x fuel lo hi ∧ bisectAux a x fuel lo hi ≤ hi ∧
      (bisectAux a x fuel lo hi = lo ∨
        a.getD (bisectAux a x fuel lo hi - 1) 0 ≤ x) ∧
      (bisectAux a x fuel lo hi = hi ∨
        x < a.getD (bisectAux a x fuel lo hi) 0) := by
  intro fuel
  induction fuel with
  | zero =>
    intro lo hi hf hle
    have h : lo = hi := by omega
    subst h
    simp [bisectAux]
  | succ fuel ih =>
    intro lo hi hf hle
    by_cases hlt : lo < hi
    · have hmidlo : lo ≤ (lo + hi) / 2 := by omega
      have hmidhi : (lo + hi) / 2 < hi := by omega
      rw [show bisectAux a x (fuel + 1) lo hi =
            (if x < a.getD ((lo + hi) / 2) 0 then bisectAux a x fuel lo ((lo + hi) / 2)
             else bisectAux a x fuel ((lo + hi) / 2 + 1) hi) by
        simp [bisectAux, hlt]]
      by_cases hx : x < a.getD ((lo + hi) / 2) 0
      · rw [if_pos hx]
        obtain ⟨g1, g2, g3, g4⟩ := ih lo ((lo + hi) / 2) (by omega) hmidlo
        refine ⟨g1, by omega, g3, ?_⟩
        rcases g4 with h | h
        · right; rw [h]; exact hx
        · right; exact h
      · rw [if_neg hx]
        obtain ⟨g1, g2, g3, g4⟩ := ih ((lo + hi) / 2 + 1) hi (by omega) (by omega)
        refine ⟨by omega, g2, ?_, g4⟩
        right
        rcases g3 with h | h
        · rw [h]
          simpa using le_of_not_lt hx
        · exact h
    · have h : lo = hi := by omega
      subst h
      simp [bisectAux]

theorem cumList_getD_succ (ws : List Rat) (i : Nat) (h : i + 1 < ws.length) :
    (cumList ws).getD (i + 1) 0 =
      ratAdd ((cumList ws).getD i 0) (ws.getD (i + 1) 0) :=
  cumFrom_getD_succ ws 0 i h

/-! ### `random.choices` lemmas -/

theorem choicesW_ok_iff {α : Type _} {pop : List α} {ws : List Rat} {u : Rat}
    {t : α} :
    choicesW pop ws u = .ok t ↔
      ∃ total, (cumList ws).getLast? = some total ∧ ¬ total ≤ 0 ∧
        pop.get? (bisectRight (cumList ws) (ratMul u total) 0 (pop.length - 1)) =
          some t := by
  simp only [choicesW]
  cases hcw : (cumList ws).getLast? with
  | none =>
    dsimp only
    simp
  | some total =>
    dsimp only
    by_cases htot : total ≤ 0
    · rw [if_pos htot]
      simp [htot]
    · rw [if_neg htot]
      cases hg : pop.get?
          (bisectRight (cumList ws) (ratMul u total) 0 (pop.length - 1)) with
      | none =>
        dsimp only
        constructor
        · intro h; exact absurd h (by simp)
        · rintro ⟨total₁, htt, _, hgt⟩
          injection htt with htt
          subst htt
          rw [hg] at hgt
          exact absurd hgt (by simp)
      | some y =>
        dsimp only
        constructor
        · intro h
          injection h with h
          subst h
          exact ⟨total, rfl, htot, hg⟩
        · rintro ⟨total₁, htt, _, hgt⟩
          injection htt with htt
          subst htt
          rw [hg] at hgt
          injection hgt with hgt
          rw [hgt]

/-- Any element returned by `random.choices` sits at an index whose weight is
strictly positive: the bisect result `j` satisfies `cum[j-1] ≤ x < cum[j]`
(with `cum[-1] = 0` and `x < total` at the clamped right end), and the
difference of consecutive cumulative sums is exactly the weight. -/
theorem choicesW_ok_weight_pos {α : Type _} {pop : List α} {ws : List Rat}
    {u : Rat} {t : α} (hlen : pop.length = ws.length) (hu0 : 0 ≤ u)
    (hu1 : u < 1) (h : choicesW pop ws u = .ok t) :
    ∃ j, pop.get? j = some t ∧ 0 < ws.getD j 0 := by
  obtain ⟨total, hcw, htot, hget⟩ := choicesW_ok_iff.1 h
  have htot' : (0 : Rat) < total := lt_of_not_le htot
  have hwsne : ws ≠ [] := by
    intro hnil; subst hnil; simp [cumList, cumFrom] at hcw
  have hcwlen : (cumList ws).length = ws.length := cumFrom_length ws 0
  have hcwne : cumList ws ≠ [] := by
    intro hnil; rw [hnil] at hcw; simp at hcw
  have hn : 0 < ws.length := by
    cases ws with
    | nil => exact absurd rfl hwsne
    | cons _ _ => simp
  have htotal_getD : total = (cumList ws).getD (ws.length - 1) 0 := by
    have h2 := hcw.symm.trans (getLast?_eq_some_getD (cumList ws) hcwne)
    have h3 := Option.some.inj h2
    rwa [hcwlen] at h3
  have hx0 : 0 ≤ ratMul u total := by
    rw [ratMul_eq_mul]; exact mul_nonneg hu0 htot'.le
  have hx1 : ratMul u total < total := by
    rw [ratMul_eq_mul]
    calc u * total < 1 * total := mul_lt_mul_of_pos_right hu1 htot'
    _ = total := one_mul total
  obtain ⟨hj0, hjhi, hjleft, hjright⟩ :=
    bisectAux_spec (cumList ws) (ratMul u total) (pop.length - 1 - 0) 0
      (pop.length - 1) le_rfl (Nat.zero_le _)
  have hjfold : bisectAux (cumList ws) (ratMul u total) (pop.length - 1 - 0) 0
      (pop.length - 1) = bisectRight (cumList ws) (ratMul u total) 0 (pop.length - 1) :=
    rfl
  rw [hjfold] at hj0 hjhi hjleft hjright
  set j := bisectRight (cumList ws) (ratMul u total) 0 (pop.length - 1) with hjdef
  have hjlt : j < ws.length := by omega
  have hxj : ratMul u total < (cumList ws).getD j 0 := by
    rcases hjright with hj | hj
    · rw [hj, hlen, ← htotal_getD]
      exact hx1
    · exact hj
  refine ⟨j, hget, ?_⟩
  rcases Nat.eq_zero_or_pos j with hj0' | hjpos
  · cases ws with
    | nil => exact absurd rfl hwsne
    | cons w0 ws' =>
      have hcw0 : (cumList (w0 :: ws')).getD 0 0 = ratAdd 0 w0 := by
        simp [cumList, cumFrom]
      rw [hj0'] at hxj
      rw [hcw0, ratAdd_eq_add, zero_add] at hxj
      rw [hj0']
      simpa using lt_of_le_of_lt hx0 hxj
  · obtain ⟨i, hji⟩ : ∃ i, j = i + 1 := ⟨j - 1, by omega⟩
    have hji' : i + 1 < ws.length := by omega
    have hleft : (cumList ws).getD i 0 ≤ ratMul u total := by
      rcases hjleft with h0 | h1
      · rw [hji] at h0; exact absurd h0 (Nat.succ_ne_zero i)
      · rw [hji] at h1; simpa using h1
    rw [hji] at hxj
    rw [cumList_getD_succ ws i hji', ratAdd_eq_add] at hxj
    rw [hji]
    linarith

/-- `random.choices` raises when every weight is non-positive: the total,
being the last cumulative sum, is then non-positive. -/
theorem choicesW_nonpos_error {α : Type _} (pop : List α) {ws : List Rat}
    (u : Rat) (hne : ws ≠ []) (hw : ∀ w ∈ ws, w ≤ 0) :
    choicesW pop ws u = .error .noEligibleType := by
  obtain ⟨w, ws', rfl⟩ : ∃ w ws', ws = w :: ws' := by
    cases ws with
    | nil => exact absurd rfl hne
    | cons w ws' => exact ⟨w, ws', rfl⟩
  have hcwne : cumList (w :: ws') ≠ [] := cumFrom_ne_nil 0 w ws'
  obtain ⟨t, ht⟩ : ∃ t, (cumList (w :: ws')).getLast? = some t :=
    ⟨_, getLast?_eq_some_getD _ hcwne⟩
  have htle : t ≤ 0 := cumFrom_getLast?_nonpos (w :: ws') 0 le_rfl hw t ht
  simp only [choicesW, ht]
  rw [if_pos htle]

/-! ### `getRandomType` lemmas -/

theorem evalWeightsGo_mem (reg : Registry) (d : Nat) (occ : OccCounts)
    (size : Nat) (P : RoomType × Rat → Prop)
    (hP : ∀ t ∈ reg.listSpecial.map (·.2), ∀ f,
      dictGet? reg.weights t = some f → P (t, f t d occ size)) :
    ∀ (ts : List RoomType) (acc out : List (RoomType × Rat)),
      (∀ t ∈ ts, t ∈ reg.listSpecial.map (·.2)) → (∀ p ∈ acc, P p) →
      evalWeightsGo reg d occ size ts acc = .ok out → ∀ p ∈ out, P p := by
  intro ts
  induction ts with
  | nil =>
    intro acc out _ hacc h
    simp only [evalWeightsGo] at h
    injection h with h
    subst h
    exact hacc
  | cons t ts ih =>
    intro acc out hts hacc h
    simp only [evalWeightsGo] at h
    cases hf : dictGet? reg.weights t with
    | none => rw [hf] at h; exact absurd h (by simp)
    | some f =>
      rw [hf] at h
      refine ih _ out (fun t' ht' => hts t' (List.mem_cons_of_mem _ ht')) ?_ h
      intro p hp
      rcases mem_dictSet _ _ _ p hp with rfl | hp'
      · exact hP t (hts t (List.mem_cons_self _ _)) f hf
      · exact hacc p hp'

theorem evalWeightsGo_ok (reg : Registry) (d : Nat) (occ : OccCounts)
    (size : Nat) :
    ∀ (ts : List RoomType) (acc : List (RoomType × Rat)),
      (∀ t ∈ ts, (dictGet? reg.weights t).isSome) →
      ∃ out, evalWeightsGo reg d occ size ts acc = .ok out ∧
        (acc ≠ [] → out ≠ []) ∧ (ts ≠ [] → out ≠ []) := by
  intro ts
  induction ts with
  | nil =>
    intro acc _
    exact ⟨acc, rfl, fun h => h, fun h => absurd rfl h⟩
  | cons t ts ih =>
    intro acc hts
    have hsome := hts t (List.mem_cons_self _ _)
    cases hf : dictGet? reg.weights t with
    | none => rw [hf] at hsome; simp at hsome
    | some f =>
      obtain ⟨out, hout, hne1, _⟩ := ih (dictSet acc t (f t d occ size))
        (fun t' ht' => hts t' (List.mem_cons_of_mem _ ht'))
      refine ⟨out, ?_, fun _ => hne1 (dictSet_ne_nil _ _ _),
        fun _ => hne1 (dictSet_ne_nil _ _ _)⟩
      simp only [evalWeightsGo, hf]
      exact hout

/-- Whatever `getRandomType` returns is a special type whose weight function,
evaluated at exactly the arguments of this call, is strictly positive. -/
theorem getRandomType_ok_spec (reg : Registry) (d : Nat) (occ : OccCounts)
    (size : Nat) (u : Rat) (t : RoomType) (hu0 : 0 ≤ u) (hu1 : u < 1)
    (h : reg.getRandomType d occ size u = .ok t) :
    t ∈ reg.listSpecial.map (·.2) ∧
      ∃ f, dictGet? reg.weights t = some f ∧ 0 < f t d occ size := by
  cases hev : evalWeights reg d occ size with
  | error e =>
    rw [Registry.getRandomType, hev] at h
    exact absurd h (by simp)
  | ok out =>
    rw [Registry.getRandomType, hev] at h
    dsimp only at h
    obtain ⟨j, hja, hjw⟩ := choicesW_ok_weight_pos (by simp) hu0 hu1 h
    rw [List.get?_map] at hja
    obtain ⟨p, hpj, hpt⟩ : ∃ p, out.get? j = some p ∧ p.1 = t := by
      cases ho : out.get? j with
      | none => rw [ho] at hja; exact absurd hja (by simp)
      | some p =>
        rw [ho] at hja
        exact ⟨p, rfl, by simpa using hja⟩
    have hpmem : p ∈ out := List.get?_mem hpj
    have hw2 : (out.map (·.2)).getD j 0 = p.2 := by
      rw [List.getD_eq_get?, List.get?_map, hpj]
      rfl
    have hmem := evalWeightsGo_mem reg d occ size
      (fun q => q.1 ∈ reg.listSpecial.map (·.2) ∧
        ∃ f, dictGet? reg.weights q.1 = some f ∧ q.2 = f q.1 d occ size)
      (fun t' ht' f hf => ⟨ht', f, hf, rfl⟩) _ [] out (fun a ha => ha)
      (by simp) hev p hpmem
    obtain ⟨p1, p2⟩ := p
    obtain ⟨hspec, f, hf, hval⟩ := hmem
    subst hpt
    refine ⟨hspec, f, hf, ?_⟩
    have : p2 = f p1 d occ size := hval
    rw [← this]
    rw [hw2] at hjw
    exact hjw

/-! ### Claim C4: all weights non-positive makes `pickWeighted` fail -/

/-- C4: whenever every special type's weight function evaluates to a value
`≤ 0` (for the given distance, occurrence counts and size), `getRandomType`
fails with the no-eligible-type error instead of returning a type, for every
value of the random variate. -/
theorem C4_all_nonpositive_weights_fail (reg : Registry) (d : Nat)
    (occ : OccCounts) (size : Nat) (u : Rat) (hne : reg.listSpecial ≠ [])
    (hw : ∀ p ∈ reg.listSpecial, ∃ f, dictGet? reg.weights p.2 = some f ∧
      f p.2 d occ size ≤ 0) :
    reg.getRandomType d occ size u = .error .noEligibleType := by
  have hsome : ∀ t ∈ reg.listSpecial.map (·.2), (dictGet? reg.weights t).isSome := by
    intro t ht
    obtain ⟨p, hp, hpt⟩ := List.mem_map.1 ht
    obtain ⟨f, hf, _⟩ := hw p hp
    rw [← hpt, hf]
    rfl
  obtain ⟨out, hout, _, hne2⟩ :=
    evalWeightsGo_ok reg d occ size (reg.listSpecial.map (·.2)) [] hsome
  have houtne : out ≠ [] := by
    apply hne2
    intro hnil
    exact hne (List.map_eq_nil.1 hnil)
  have hall : ∀ p ∈ out, p.2 ≤ 0 := by
    refine evalWeightsGo_mem reg d occ size (fun p => p.2 ≤ 0) ?_ _ [] out
      (fun t ht => ht) (by simp) hout
    intro t ht f hf
    obtain ⟨p, hp, hpt⟩ := List.mem_map.1 ht
    obtain ⟨f', hf', hle⟩ := hw p hp
    rw [hpt] at hf'
    rw [hf] at hf'
    injection hf' with hf'
    subst hf'
    rw [← hpt]
    exact hle
  have hev : evalWeights reg d occ size = .ok out := hout
  rw [Registry.getRandomType, hev]
  dsimp only
  apply choicesW_nonpos_error
  · intro hnil
    exact houtne (by simpa using hnil)
  · intro w hwmem
    obtain ⟨p, hp, hpw⟩ := List.mem_map.1 hwmem
    rw [← hpw]
    exact hall p hp

/-- A registry holding a single special type whose weight function returns 0,
for the C4 witness. -/
def regZero : Registry :=
  let r := Registry.empty
  let r := (r.register "Void" [0, 0, 0] true).1
  orKeep (r.addWeight "Void" (fun _ _ _ _ => 0)) r

/-- Witness for C4 at a concrete registry, distance, counts and variate. -/
theorem C4_all_nonpositive_weights_fail_witness :
    (regZero.listSpecial ≠ [] ∧
      ∀ p ∈ regZero.listSpecial, ∃ f, dictGet? regZero.weights p.2 = some f ∧
        f p.2 3 [] 10 ≤ 0) ∧
    regZero.getRandomType 3 [] 10 (mkRat 1 3) = .error .noEligibleType := by
  have h1 : regZero.listSpecial ≠ [] := by decide
  have h2 : ∀ p ∈ regZero.listSpecial, ∃ f, dictGet? regZero.weights p.2 = some f ∧
      f p.2 3 [] 10 ≤ 0 := by
    intro p hp
    have hsp : regZero.listSpecial = [("Void", ⟨"Void", [0, 0, 0]⟩)] := rfl
    rw [hsp] at hp
    rcases List.mem_singleton.1 hp with rfl
    exact ⟨fun _ _ _ _ => 0, rfl, le_rfl⟩
  exact ⟨⟨h1, h2⟩, C4_all_nonpositive_weights_fail regZero 3 [] 10 (mkRat 1 3) h1 h2⟩

/-! ### Claim C5: duplicate registration (corrected) -/

/-- C5 counterexample: registering the name `"A"` a second time does not fail
and does not leave the registry unchanged — the stored type is silently
overwritten with the new one. -/
theorem C5_duplicate_register_counterexample :
    ((((Registry.empty.register "A" [1] false).1).register "A" [2] false).1).listAll =
      [("A", ⟨"A", [2]⟩)] ∧
    ((((Registry.empty.register "A" [1] false).1).register "A" [2] false).1).listAll ≠
      (((Registry.empty.register "A" [1] false).1)).listAll := by
  exact ⟨rfl, by decide⟩

/-- C5 (amended): registering a name that is already registered never raises;
it silently overwrites, so the registry afterwards maps the name to the
newly created type. -/
theorem C5_duplicate_register_overwrites (reg : Registry) (name : String)
    (c1 c2 : Color) (s1 s2 : Bool) :
    dictGet? ((((reg.register name c1 s1).1).register name c2 s2).1).listAll name =
      some ⟨name, c2⟩ := by
  simp only [Registry.register]
  exact dictGet?_dictSet_self _ _ _

/-! ### Claim C8: assigned dead-end types have strictly positive weight -/

/-- C8: in any state of the dead-end assignment loop, the type the loop picks
for the next dead end `de` — the type it then assigns via `setTypeAt` — is a
special type whose weight function evaluates strictly positively at the
dead end's distance, the occurrence counts current at that moment, and the
target size.  (`us uIdx` is this call's `random.random()` variate.) -/
theorem C8_assignment_weight_positive (reg : Registry) (size : Nat)
    (us : Nat → Rat) (rooms : List Room) (uIdx : Nat) (de : Room)
    (rest : List Room) (occ : OccCounts) (out : List Room × OccCounts)
    (hu0 : 0 ≤ us uIdx) (hu1 : us uIdx < 1)
    (hok : assignLoop reg size us rooms uIdx (de :: rest) occ = .ok out) :
    ∃ t f, reg.getRandomType de.distanceFromEntrance occ size (us uIdx) = .ok t ∧
      t ∈ reg.listSpecial.map (·.2) ∧
      dictGet? reg.weights t = some f ∧
      0 < f t de.distanceFromEntrance occ size ∧
      assignLoop reg size us rooms uIdx (de :: rest) occ =
        assignLoop reg size us (setTypeAt rooms (de.x, de.y) t) (uIdx + 1) rest
          (dictSet occ t ((dictGet? occ t).getD 0 + 1)) := by
  simp only [assignLoop] at hok
  cases hgt : reg.getRandomType de.distanceFromEntrance occ size (us uIdx) with
  | error e =>
    rw [hgt] at hok
    exact absurd hok (by simp)
  | ok t =>
    rw [hgt] at hok
    obtain ⟨hspec, f, hf, hpos⟩ :=
      getRandomType_ok_spec reg de.distanceFromEntrance occ size (us uIdx) t
        hu0 hu1 hgt
    refine ⟨t, f, rfl, hspec, hf, hpos, ?_⟩
    simp only [assignLoop]
    rw [hgt]

/-- Witness for C8: one dead end at distance 1 in the program's registry. -/
theorem C8_assignment_weight_positive_witness :
    ((0 : Rat) ≤ 0 ∧ (0 : Rat) < 1) ∧
    assignLoop progReg 5 (fun _ => 0) [⟨basicT, 1, 0, 1, 1⟩] 0
        [⟨basicT, 1, 0, 1, 1⟩] [] =
      .ok ([⟨⟨"Greenhouse", [0, 255, 0]⟩, 1, 0, 1, 1⟩],
        [(⟨"Greenhouse", [0, 255, 0]⟩, 1)]) ∧
    (∃ t f, progReg.getRandomType 1 [] 5 0 = .ok t ∧
      t ∈ progReg.listSpecial.map (·.2) ∧
      dictGet? progReg.weights t = some f ∧
      0 < f t 1 [] 5 ∧
      assignLoop progReg 5 (fun _ => 0) [⟨basicT, 1, 0, 1, 1⟩] 0
          [⟨basicT, 1, 0, 1, 1⟩] [] =
        assignLoop progReg 5 (fun _ => 0)
          (setTypeAt [⟨basicT, 1, 0, 1, 1⟩] (1, 0) t) 1 []
          (dictSet [] t ((dictGet? [] t).getD 0 + 1))) := by
  refine ⟨⟨le_rfl, by decide⟩, rfl, ?_⟩
  exact C8_assignment_weight_positive progReg 5 (fun _ => 0)
    [⟨basicT, 1, 0, 1, 1⟩] 0 ⟨basicT, 1, 0, 1, 1⟩ [] []
    ([⟨⟨"Greenhouse", [0, 255, 0]⟩, 1, 0, 1, 1⟩],
      [(⟨"Greenhouse", [0, 255, 0]⟩, 1)]) le_rfl (by decide) rfl

/-! ### Claim C9: `addWeight` error behavior (corrected) -/

/-- C9 counterexample: `addWeight` on a registered type that was *not* marked
special succeeds (storing the function) instead of failing with the
unknown-type error. -/
theorem C9_addWeight_nonspecial_counterexample :
    (Registry.empty.register "Entrance" [255, 255, 0] false).1.addWeight
        "Entrance" (fun _ _ _ _ => 1) =
      .ok ⟨[("Entrance", ⟨"Entrance", [255, 255, 0]⟩)], [],
           [(⟨"Entrance", [255, 255, 0]⟩, fun _ _ _ _ => 1)]⟩ := rfl

/-- C9 (amended): `addWeight` on a name that is not registered fails with the
unknown-type error (`KeyError`), leaving the weight table untouched; on any
registered name — special or not — it succeeds and stores the function under
that type. -/
theorem C9_addWeight_behavior (reg : Registry) (name : String) (f : WeightFn) :
    (dictGet? reg.listAll name = none →
      reg.addWeight name f = .error .unknownType) ∧
    (∀ t, dictGet? reg.listAll name = some t →
      reg.addWeight name f = .ok { reg with weights := dictSet reg.weights t f }) := by
  constructor
  · intro h
    rw [Registry.addWeight, h]
  · intro t h
    rw [Registry.addWeight, h]

/-- Witness for C9 (amended), on the empty registry and on a registry holding
a non-special `"Entrance"`. -/
theorem C9_addWeight_behavior_witness :
    Registry.empty.addWeight "Ghost" (fun _ _ _ _ => 1) = .error .unknownType ∧
    (Registry.empty.register "Entrance" [255, 255, 0] false).1.addWeight
        "Entrance" (fun _ _ _ _ => 1) =
      .ok { (Registry.empty.register "Entrance" [255, 255, 0] false).1 with
            weights := dictSet
              (Registry.empty.register "Entrance" [255, 255, 0] false).1.weights
              ⟨"Entrance", [255, 255, 0]⟩ (fun _ _ _ _ => 1) } :=
  ⟨(C9_addWeight_behavior Registry.empty "Ghost" (fun _ _ _ _ => 1)).1 rfl,
   (C9_addWeight_behavior (Registry.empty.register "Entrance" [255, 255, 0] false).1
      "Entrance" (fun _ _ _ _ => 1)).2 ⟨"Entrance", [255, 255, 0]⟩ rfl⟩

/-! ### Grid geometry -/

theorem dirVectors_eq : dirVectors = [(0, 1), (1, 0), (0, -1), (-1, 0)] := rfl

/-- Two cells are 4-adjacent when their difference is a cardinal unit
vector. -/
def adj (c d : Coord) : Prop := (d.1 - c.1, d.2 - c.2) ∈ dirVectors

instance (c d : Coord) : Decidable (adj c d) :=
  inferInstanceAs (Decidable ((d.1 - c.1, d.2 - c.2) ∈ dirVectors))

theorem adj_iff (c d : Coord) :
    adj c d ↔ (d.1 - c.1 = 0 ∧ d.2 - c.2 = 1) ∨ (d.1 - c.1 = 1 ∧ d.2 - c.2 = 0) ∨
      (d.1 - c.1 = 0 ∧ d.2 - c.2 = -1) ∨ (d.1 - c.1 = -1 ∧ d.2 - c.2 = 0) := by
  unfold adj
  rw [dirVectors_eq]
  simp [Prod.ext_iff]

theorem adj_symm {c d : Coord} (h : adj c d) : adj d c := by
  rw [adj_iff] at h ⊢
  omega

theorem adj_irrefl (c : Coord) : ¬ adj c c := by
  rw [adj_iff]
  omega

theorem adj_iff_add (c d : Coord) :
    adj c d ↔ ∃ v ∈ dirVectors, d = (c.1 + v.1, c.2 + v.2) := by
  constructor
  · intro h
    refine ⟨(d.1 - c.1, d.2 - c.2), h, ?_⟩
    obtain ⟨d1, d2⟩ := d
    obtain ⟨c1, c2⟩ := c
    simp only [Prod.ext_iff]
    constructor <;> simp
  · rintro ⟨v, hv, rfl⟩
    unfold adj
    simpa using hv

/-! ### Occupancy and neighbor counting -/

theorem occupiedB_eq_decide (rooms : List Room) (c : Coord) :
    occupiedB rooms c = decide (c ∈ rooms.map Room.pos) := by
  induction rooms with
  | nil => rfl
  | cons r rs ih =>
    by_cases h : r.x = c.1 ∧ r.y = c.2
    · unfold occupiedB findRoom
      rw [List.find?_cons_of_pos _ (by simpa using h)]
      have hmem : c ∈ ((r :: rs).map Room.pos) := by
        have : Room.pos r = c := by
          obtain ⟨c1, c2⟩ := c
          simp only [Room.pos, Prod.ext_iff]
          exact ⟨h.1, h.2⟩
        simp [this]
      exact (decide_eq_true hmem).symm
    · unfold occupiedB findRoom at ih ⊢
      rw [List.find?_cons_of_neg _ (by simpa using h)]
      rw [ih]
      rw [decide_eq_decide]
      have hne : ¬ c = r.pos := by
        intro hc
        apply h
        obtain ⟨c1, c2⟩ := c
        simp only [Room.pos, Prod.ext_iff] at hc
        exact ⟨hc.1.symm, hc.2.symm⟩
      simp only [List.map_cons, List.mem_cons]
      constructor
      · exact Or.inr
      · rintro (h' | h')
        · exact absurd h' hne
        · exact h'

theorem occupiedB_congr {r1 r2 : List Room}
    (h : r1.map Room.pos = r2.map Room.pos) (c : Coord) :
    occupiedB r1 c = occupiedB r2 c := by
  rw [occupiedB_eq_decide, occupiedB_eq_decide, h]

theorem length_filterMap_eq_countP {α β : Type _} (f : α → Option β)
    (l : List α) :
    (l.filterMap f).length = l.countP (fun a => (f a).isSome) := by
  induction l with
  | nil => rfl
  | cons a l ih =>
    cases hf : f a <;>
      simp [List.filterMap_cons, hf, List.countP_cons, ih]

theorem nbrCount_eq_countP (rooms : List Room) (c : Coord) :
    nbrCount rooms c =
      dirVectors.countP (fun v => occupiedB rooms (c.1 + v.1, c.2 + v.2)) := by
  unfold nbrCount neighborsOf
  rw [length_filterMap_eq_countP]
  rfl

theorem nbrCount_congr {r1 r2 : List Room}
    (h : r1.map Room.pos = r2.map Room.pos) (c : Coord) :
    nbrCount r1 c = nbrCount r2 c := by
  rw [nbrCount_eq_countP, nbrCount_eq_countP]
  apply List.countP_congr
  intro v _
  rw [occupiedB_congr h]

theorem findRoom_mem {rooms : List Room} {c : Coord} {r : Room}
    (h : findRoom rooms c = some r) : r ∈ rooms ∧ r.pos = c := by
  unfold findRoom at h
  have h1 := List.find?_some h
  have h2 := List.mem_of_find?_eq_some h
  refine ⟨h2, ?_⟩
  obtain ⟨c1, c2⟩ := c
  simp only [decide_eq_true_eq] at h1
  simp only [Room.pos, Prod.ext_iff]
  exact h1

theorem occupiedB_of_mem {rooms : List Room} {r : Room} (h : r ∈ rooms) :
    occupiedB rooms r.pos = true := by
  rw [occupiedB_eq_decide]
  simp only [decide_eq_true_eq]
  exact List.mem_map_of_mem Room.pos h

theorem occupiedB_some {rooms : List Room} {c : Coord}
    (h : occupiedB rooms c = true) : ∃ r ∈ rooms, r.pos = c := by
  unfold occupiedB at h
  cases hf : findRoom rooms c with
  | none => rw [hf] at h; simp at h
  | some r =>
    obtain ⟨hmem, hpos⟩ := findRoom_mem hf
    exact ⟨r, hmem, hpos⟩

theorem pos_inj_of_nodup {rooms : List Room}
    (hnd : (rooms.map Room.pos).Nodup) :
    ∀ r ∈ rooms, ∀ s ∈ rooms, r.pos = s.pos → r = s := by
  intro r hr s hs h
  exact List.inj_on_of_nodup_map hnd hr hs h

theorem findRoom_eq_some_of_mem {rooms : List Room} {r : Room}
    (hnd : (rooms.map Room.pos).Nodup) (hr : r ∈ rooms) :
    findRoom rooms r.pos = some r := by
  induction rooms with
  | nil => exact absurd hr (List.not_mem_nil r)
  | cons a l ih =>
    rcases List.mem_cons.1 hr with rfl | hr'
    · unfold findRoom
      rw [List.find?_cons_of_pos _ (by simp [Room.pos])]
    · by_cases ha : a.pos = r.pos
      · exfalso
        have : r.pos ∈ l.map Room.pos := List.mem_map_of_mem Room.pos hr'
        rw [← ha] at this
        exact (List.nodup_cons.1 hnd).1 this
      · unfold findRoom
        rw [List.find?_cons_of_neg _ ?_]
        · exact ih (List.nodup_cons.1 hnd).2 hr'
        · simp only [decide_eq_true_eq]
          intro hc
          apply ha
          obtain ⟨hx, hy⟩ := hc
          simp [Room.pos, Prod.ext_iff, hx, hy]

theorem mem_neighborsOf {rooms : List Room} {c : Coord} {r : Room} :
    r ∈ neighborsOf rooms c ↔
      ∃ v ∈ dirVectors, findRoom rooms (c.1 + v.1, c.2 + v.2) = some r := by
  unfold neighborsOf
  exact List.mem_filterMap

/-! ### Effect of the mutation helpers -/

theorem bumpIfNbr_pos (nbrs : List Room) (r : Room) :
    (bumpIfNbr nbrs r).pos = r.pos := by
  unfold bumpIfNbr
  split <;> rfl

theorem bumpIfNbr_dist (nbrs : List Room) (r : Room) :
    (bumpIfNbr nbrs r).distanceFromEntrance = r.distanceFromEntrance := by
  unfold bumpIfNbr
  split <;> rfl

theorem bumpIfNbr_type (nbrs : List Room) (r : Room) :
    (bumpIfNbr nbrs r).type = r.type := by
  unfold bumpIfNbr
  split <;> rfl

theorem bumpIfNbr_nc_ge (nbrs : List Room) (r : Room) :
    r.neighborCount ≤ (bumpIfNbr nbrs r).neighborCount := by
  unfold bumpIfNbr
  split
  · exact Nat.le_succ _
  · exact le_rfl

theorem bumpIfNbr_single (nb r : Room) :
    bumpIfNbr [nb] r =
      if nb.pos = r.pos then { r with neighborCount := r.neighborCount + 1 }
      else r := by
  by_cases h : nb.pos = r.pos
  · rw [if_pos h]
    unfold bumpIfNbr
    rw [if_pos ?_]
    refine ⟨nb, List.mem_singleton_self _, ?_, ?_⟩
    · exact congrArg Prod.fst h
    · exact congrArg Prod.snd h
  · rw [if_neg h]
    unfold bumpIfNbr
    rw [if_neg ?_]
    rintro ⟨nb', hnb', hx, hy⟩
    rcases List.mem_singleton.1 hnb' with rfl
    apply h
    simp [Room.pos, Prod.ext_iff, hx, hy]

theorem setTypeIf_pos (p : Coord) (t : RoomType) (r : Room) :
    (setTypeIf p t r).pos = r.pos := by
  unfold setTypeIf
  split <;> rfl

theorem setTypeIf_nc (p : Coord) (t : RoomType) (r : Room) :
    (setTypeIf p t r).neighborCount = r.neighborCount := by
  unfold setTypeIf
  split <;> rfl

theorem setTypeIf_dist (p : Coord) (t : RoomType) (r : Room) :
    (setTypeIf p t r).distanceFromEntrance = r.distanceFromEntrance := by
  unfold setTypeIf
  split <;> rfl

theorem bumpNeighbors_map_pos (rooms nbrs : List Room) :
    (bumpNeighbors rooms nbrs).map Room.pos = rooms.map Room.pos := by
  unfold bumpNeighbors
  rw [List.map_map]
  exact List.map_congr_left (fun r _ => bumpIfNbr_pos nbrs r)

theorem setTypeAt_map_pos (rooms : List Room) (p : Coord) (t : RoomType) :
    (setTypeAt rooms p t).map Room.pos = rooms.map Room.pos := by
  unfold setTypeAt
  rw [List.map_map]
  exact List.map_congr_left (fun r _ => setTypeIf_pos p t r)

theorem findRoom_map_posPreserving (f : Room → Room)
    (hf : ∀ r, (f r).x = r.x ∧ (f r).y = r.y) (rooms : List Room) (c : Coord) :
    findRoom (rooms.map f) c = (findRoom rooms c).map f := by
  induction rooms with
  | nil => rfl
  | cons a l ih =>
    by_cases h : a.x = c.1 ∧ a.y = c.2
    · unfold findRoom
      rw [List.map_cons, List.find?_cons_of_pos _ (by simp [(hf a).1, (hf a).2, h.1, h.2]),
        List.find?_cons_of_pos _ (by simpa using h)]
      rfl
    · unfold findRoom at ih ⊢
      rw [List.map_cons, List.find?_cons_of_neg _ ?_,
        List.find?_cons_of_neg _ (by simpa using h)]
      · exact ih
      · simp only [decide_eq_true_eq, (hf a).1, (hf a).2]
        exact h

theorem findRoom_bump (rooms nbrs : List Room) (c : Coord) :
    findRoom (bumpNeighbors rooms nbrs) c =
      (findRoom rooms c).map (bumpIfNbr nbrs) :=
  findRoom_map_posPreserving (bumpIfNbr nbrs)
    (fun r => by unfold bumpIfNbr; split <;> exact ⟨rfl, rfl⟩) rooms c

theorem findRoom_setTypeAt (rooms : List Room) (p : Coord) (t : RoomType)
    (c : Coord) :
    findRoom (setTypeAt rooms p t) c = (findRoom rooms c).map (setTypeIf p t) :=
  findRoom_map_posPreserving (setTypeIf p t)
    (fun r => by unfold setTypeIf; split <;> exact ⟨rfl, rfl⟩) rooms c

theorem findRoom_append_some {r1 r2 : List Room} {c : Coord} {r : Room}
    (h : findRoom r1 c = some r) : findRoom (r1 ++ r2) c = some r := by
  induction r1 with
  | nil => simp [findRoom] at h
  | cons a l ih =>
    unfold findRoom at h ⊢
    rw [List.cons_append]
    by_cases ha : a.x = c.1 ∧ a.y = c.2
    · rw [List.find?_cons_of_pos _ (by simpa using ha)] at h ⊢
      exact h
    · rw [List.find?_cons_of_neg _ (by simpa using ha)] at h ⊢
      exact ih h

theorem findRoom_append_none {r1 r2 : List Room} {c : Coord}
    (h : findRoom r1 c = none) : findRoom (r1 ++ r2) c = findRoom r2 c := by
  induction r1 with
  | nil => rfl
  | cons a l ih =>
    unfold findRoom at h ⊢
    rw [List.cons_append]
    by_cases ha : a.x = c.1 ∧ a.y = c.2
    · rw [List.find?_cons_of_pos _ (by simpa using ha)] at h
      exact absurd h (by simp)
    · rw [List.find?_cons_of_neg _ (by simpa using ha)] at h ⊢
      exact ih h

theorem occupiedB_append_single (rooms : List Room) (nr : Room) (p : Coord) :
    occupiedB (rooms ++ [nr]) p =
      (occupiedB rooms p || decide (nr.pos = p)) := by
  rw [occupiedB_eq_decide, occupiedB_eq_decide, List.map_append]
  by_cases h1 : p ∈ rooms.map Room.pos
  · simp [List.mem_append, h1]
  · by_cases h2 : nr.pos = p
    · simp [List.mem_append, h1, h2]
    · have h2' : ¬ p = nr.pos := fun h => h2 h.symm
      simp [List.mem_append, h1, h2, h2']

/-! ### Counting lemmas -/

theorem countP_or_disjoint {α : Type _} (l : List α) (p q : α → Bool)
    (h : ∀ a ∈ l, ¬(p a = true ∧ q a = true)) :
    l.countP (fun a => p a || q a) = l.countP p + l.countP q := by
  induction l with
  | nil => rfl
  | cons a l ih =>
    simp only [List.countP_cons]
    rw [ih (fun b hb => h b (List.mem_cons_of_mem _ hb))]
    have ha := h a (List.mem_cons_self _ _)
    cases hp : p a <;> cases hq : q a
    · simp [hp, hq]
    · simp [hp, hq]; omega
    · simp [hp, hq]; omega
    · rw [hp, hq] at ha; simp at ha

theorem countP_target_eq (p d : Coord) :
    dirVectors.countP (fun v => decide (d = (p.1 + v.1, p.2 + v.2))) =
      if adj p d then 1 else 0 := by
  obtain ⟨p1, p2⟩ := p
  obtain ⟨d1, d2⟩ := d
  simp only [adj_iff]
  rw [dirVectors_eq]
  simp only [List.countP_cons, List.countP_nil, decide_eq_true_eq,
    Prod.mk.injEq]
  split_ifs <;> omega

theorem nbrCount_append_single {rooms : List Room} {nr : Room}
    (hnew : occupiedB rooms nr.pos = false) (p : Coord) :
    nbrCount (rooms ++ [nr]) p =
      nbrCount rooms p + (if adj p nr.pos then 1 else 0) := by
  rw [nbrCount_eq_countP, nbrCount_eq_countP]
  have hc : List.countP (fun v => occupiedB (rooms ++ [nr]) (p.1 + v.1, p.2 + v.2))
        dirVectors =
      List.countP (fun v => occupiedB rooms (p.1 + v.1, p.2 + v.2) ||
        decide (nr.pos = (p.1 + v.1, p.2 + v.2))) dirVectors :=
    List.countP_congr (fun v _ => by rw [occupiedB_append_single])
  have hdisj : ∀ v ∈ dirVectors,
      ¬((fun v => occupiedB rooms (p.1 + v.1, p.2 + v.2)) v = true ∧
        (fun v => decide (nr.pos = (p.1 + v.1, p.2 + v.2))) v = true) := by
    intro v _ hvv
    obtain ⟨h1, h2⟩ := hvv
    dsimp only at h1 h2
    simp only [decide_eq_true_eq] at h2
    rw [← h2] at h1
    rw [hnew] at h1
    simp at h1
  rw [hc, countP_or_disjoint dirVectors _ _ hdisj, countP_target_eq]

/-! ### Decidable geometric facts about the four unit vectors -/

theorem dirVectors_nodup : dirVectors.Nodup := by decide

theorem dirVectors_ne_origin :
    ∀ v ∈ dirVectors, v ≠ ((0 : Int), (0 : Int)) := by decide

theorem dirVectors_sum_not_mem :
    ∀ v ∈ dirVectors, ∀ w ∈ dirVectors,
      (v.1 + w.1, v.2 + w.2) ∉ dirVectors := by decide

theorem dirVectors_adj_origin :
    ∀ v ∈ dirVectors,
      adj ((0 : Int), (0 : Int)) v ∧ adj v ((0 : Int), (0 : Int)) := by decide

theorem dirVectors_countP_origin :
    ∀ v ∈ dirVectors, dirVectors.countP
      (fun w => decide ((v.1 + w.1, v.2 + w.2) = ((0 : Int), (0 : Int)))) = 1 := by
  decide

theorem dirNumToVector_eq_some_iff (a : Nat) (v : Coord) :
    dirNumToVector a = some v ↔
      (a = 0 ∧ v = (0, 1)) ∨ (a = 1 ∧ v = (1, 0)) ∨
      (a = 2 ∧ v = (0, -1)) ∨ (a = 3 ∧ v = (-1, 0)) := by
  match a with
  | 0 => simp [dirNumToVector, eq_comm]
  | 1 => simp [dirNumToVector, eq_comm]
  | 2 => simp [dirNumToVector, eq_comm]
  | 3 => simp [dirNumToVector, eq_comm]
  | n + 4 =>
    simp only [dirNumToVector]
    constructor
    · intro h
      exact absurd h (by simp)
    · intro h
      rcases h with ⟨h, _⟩ | ⟨h, _⟩ | ⟨h, _⟩ | ⟨h, _⟩ <;> omega

theorem mem_dirVectors_of_some {a : Nat} {v : Coord}
    (h : dirNumToVector a = some v) : v ∈ dirVectors := by
  rw [dirNumToVector_eq_some_iff] at h
  rw [dirVectors_eq]
  rcases h with ⟨_, rfl⟩ | ⟨_, rfl⟩ | ⟨_, rfl⟩ | ⟨_, rfl⟩ <;> simp

theorem dirNumToVector_isSome_of_lt {a : Nat} (h : a < 4) :
    (dirNumToVector a).isSome = true := by
  match a, h with
  | 0, _ => rfl
  | 1, _ => rfl
  | 2, _ => rfl
  | 3, _ => rfl

theorem dirNumToVector_inj {a b : Nat} {v : Coord}
    (ha : dirNumToVector a = some v) (hb : dirNumToVector b = some v) :
    a = b := by
  rw [dirNumToVector_eq_some_iff] at ha hb
  rcases ha with ⟨rfl, rfl⟩ | ⟨rfl, rfl⟩ | ⟨rfl, rfl⟩ | ⟨rfl, rfl⟩ <;>
    rcases hb with ⟨rfl, h⟩ | ⟨rfl, h⟩ | ⟨rfl, h⟩ | ⟨rfl, h⟩ <;>
      first
        | rfl
        | exact absurd h (by decide)

/-! ### Paths and the generation invariant -/

/-- A walk of `n` adjacency hops from the entrance cell `(0, 0)` to `c`
through occupied cells of the dungeon. -/
inductive PathTo (rooms : List Room) : Coord → Nat → Prop where
  | entrance : occupiedB rooms (0, 0) = true → PathTo rooms (0, 0) 0
  | step {c d : Coord} {n : Nat} : PathTo rooms c n → adj c d →
      occupiedB rooms d = true → PathTo rooms d (n + 1)

/-- The invariant maintained by the seed step and every growth step:
positions are unique; the entrance cell is occupied; a room's cached
distance is zero exactly at the entrance; every room of positive distance
has a neighbor one step closer (a parent); cached distances of adjacent
rooms differ by at most one; every cached `neighborCount` equals the number
of occupied 4-adjacent cells; every room still has the basic type; every
room except those of the initial segment had exactly one already-placed
neighbor at the moment it was appended; and the neighbor counts sum to twice
the edge count `rooms.length - 1` of a tree. -/
structure Inv (basic : RoomType) (rooms : List Room) : Prop where
  nodup : (rooms.map Room.pos).Nodup
  entrance : occupiedB rooms (0, 0) = true
  dist_zero_iff : ∀ r ∈ rooms, (r.distanceFromEntrance = 0 ↔ r.pos = (0, 0))
  descent : ∀ r ∈ rooms, 0 < r.distanceFromEntrance →
    ∃ s ∈ rooms, adj r.pos s.pos ∧
      s.distanceFromEntrance + 1 = r.distanceFromEntrance
  lipschitz : ∀ r ∈ rooms, ∀ s ∈ rooms, adj r.pos s.pos →
    r.distanceFromEntrance ≤ s.distanceFromEntrance + 1
  nc_eq : ∀ r ∈ rooms, r.neighborCount = nbrCount rooms r.pos
  types : ∀ r ∈ rooms, r.type = basic
  growth_one : ∀ pre r post, rooms = pre ++ r :: post → pre ≠ [] →
    nbrCount pre r.pos = 1
  nc_sum : (rooms.map Room.neighborCount).sum = 2 * (rooms.length - 1)

/-! ### The seed state satisfies the invariant -/

/-- Counting the elements of a duplicate-free list that satisfy a predicate
equivalent to membership in a duplicate-free sub-collection gives that
collection's size. -/
theorem countP_eq_length_of_mem_iff {α : Type _} {l sub : List α} {p : α → Bool}
    (hp : ∀ v ∈ l, (p v = true ↔ v ∈ sub)) (hlnd : l.Nodup) (hsubnd : sub.Nodup)
    (hsub : ∀ v ∈ sub, v ∈ l) : l.countP p = sub.length := by
  rw [List.countP_eq_length_filter]
  have hperm : List.Perm (l.filter p) sub := by
    rw [List.perm_ext_iff_of_nodup (hlnd.filter p) hsubnd]
    intro a
    rw [List.mem_filter]
    constructor
    · rintro ⟨hal, hpa⟩
      exact (hp a hal).1 hpa
    · intro ha
      exact ⟨hsub a ha, (hp a (hsub a ha)).2 ha⟩
  exact hperm.length_eq

theorem sum_map_one {α : Type _} (l : List α) :
    (l.map (fun _ => (1 : Nat))).sum = l.length := by
  induction l with
  | nil => rfl
  | cons a l ih => simp [ih, Nat.add_comm]

theorem map_eq_append_cons {α β : Type _} (f : α → β) :
    ∀ (l : List α) (s : List β) (b : β) (t : List β), l.map f = s ++ b :: t →
      ∃ l1 a l2, l = l1 ++ a :: l2 ∧ s = l1.map f ∧ b = f a ∧ t = l2.map f := by
  intro l
  induction l with
  | nil =>
    intro s b t h
    rw [List.map_nil] at h
    exact absurd h.symm (List.append_ne_nil_of_right_ne_nil s (by simp))
  | cons a l ih =>
    intro s b t h
    cases s with
    | nil =>
      rw [List.map_cons, List.nil_append] at h
      injection h with h1 h2
      exact ⟨[], a, l, rfl, rfl, h1.symm, h2.symm⟩
    | cons s0 s' =>
      rw [List.map_cons, List.cons_append] at h
      injection h with h1 h2
      obtain ⟨l1, a', l2, hl, hs, hb, ht⟩ := ih s' b t h2
      exact ⟨a :: l1, a', l2, by rw [hl, List.cons_append],
        by rw [List.map_cons, ← h1, ← hs], hb, ht⟩

/-- In a state whose occupied cells are the origin plus a set of unit-vector
cells, a seed cell `v` has exactly one occupied neighbor (the entrance): unit
vectors are never adjacent to each other. -/
theorem nbrCount_seed_cell (rooms : List Room) (v : Coord) (hv : v ∈ dirVectors)
    (ws : List Coord) (hws : ∀ w ∈ ws, w ∈ dirVectors)
    (hocc : ∀ c, (occupiedB rooms c = true ↔
      c ∈ ((((0 : Int), (0 : Int))) :: ws))) :
    nbrCount rooms v = 1 := by
  rw [nbrCount_eq_countP]
  have hcong : List.countP (fun w => occupiedB rooms (v.1 + w.1, v.2 + w.2))
      dirVectors = List.countP
        (fun w => decide ((v.1 + w.1, v.2 + w.2) = (((0 : Int), (0 : Int)))))
        dirVectors := by
    apply List.countP_congr
    intro w hw
    rw [hocc (v.1 + w.1, v.2 + w.2), decide_eq_true_eq]
    simp only [List.mem_cons]
    constructor
    · rintro (h | h)
      · exact h
      · exact absurd (hws _ h) (dirVectors_sum_not_mem v hv w hw)
    · exact Or.inl
  rw [hcong]
  exact dirVectors_countP_origin v hv

/-- In the same kind of state, the entrance has exactly one occupied
neighbor per placed seed cell. -/
theorem nbrCount_seed_origin (rooms : List Room) (ws : List Coord)
    (hnd : ws.Nodup) (hws : ∀ w ∈ ws, w ∈ dirVectors)
    (hocc : ∀ c, (occupiedB rooms c = true ↔
      c ∈ ((((0 : Int), (0 : Int))) :: ws))) :
    nbrCount rooms ((0 : Int), (0 : Int)) = ws.length := by
  rw [nbrCount_eq_countP]
  apply countP_eq_length_of_mem_iff ?_ dirVectors_nodup hnd hws
  intro v hv
  rw [hocc]
  have hveq : ((((0 : Int), (0 : Int)) : Coord).1 + v.1,
      (((0 : Int), (0 : Int)) : Coord).2 + v.2) = v := by
    obtain ⟨v1, v2⟩ := v
    simp
  rw [hveq]
  simp only [List.mem_cons]
  constructor
  · rintro (h | h)
    · exact absurd h (dirVectors_ne_origin v hv)
    · exact h
  · exact Or.inr

theorem seed_inv (basic : RoomType) (b : Nat) (vs : List Coord)
    (hnd : vs.Nodup) (hsub : ∀ v ∈ vs, v ∈ dirVectors) (hb : b = vs.length) :
    Inv basic ((⟨basic, 0, 0, b, 0⟩ : Room) ::
      vs.map (fun v => ⟨basic, v.1, v.2, 1, 1⟩)) := by
  set f : Coord → Room := fun v => ⟨basic, v.1, v.2, 1, 1⟩ with hf
  set rooms : List Room := ⟨basic, 0, 0, b, 0⟩ :: vs.map f with hrooms
  have hposf : ∀ v, Room.pos (f v) = v := fun v => rfl
  have posmap : rooms.map Room.pos = (((0 : Int), (0 : Int))) :: vs := by
    rw [hrooms, List.map_cons, List.map_map]
    congr 1
    rw [show Room.pos ∘ f = id from funext fun v => hposf v, List.map_id]
  have hvn0 : ∀ v ∈ vs, v ≠ (((0 : Int), (0 : Int))) :=
    fun v hv => dirVectors_ne_origin v (hsub v hv)
  have hocc : ∀ c, occupiedB rooms c = true ↔
      c ∈ ((((0 : Int), (0 : Int))) :: vs) := by
    intro c
    rw [occupiedB_eq_decide, posmap, decide_eq_true_eq]
  refine ⟨?_, ?_, ?_, ?_, ?_, ?_, ?_, ?_, ?_⟩
  · rw [posmap]
    exact List.nodup_cons.2 ⟨fun h => hvn0 _ h rfl, hnd⟩
  · rw [hocc]
    simp
  · intro r hr
    rcases List.mem_cons.1 hr with rfl | hr'
    · simp [Room.pos]
    · obtain ⟨v, hv, rfl⟩ := List.mem_map.1 hr'
      rw [hposf]
      simp only [show (f v).distanceFromEntrance = 1 from rfl]
      constructor
      · intro h; exact absurd h (by simp)
      · intro h; exact absurd h (hvn0 v hv)
  · intro r hr hpos
    rcases List.mem_cons.1 hr with rfl | hr'
    · exact absurd hpos (by simp)
    · obtain ⟨v, hv, rfl⟩ := List.mem_map.1 hr'
      refine ⟨⟨basic, 0, 0, b, 0⟩, List.mem_cons_self _ _, ?_, rfl⟩
      rw [hposf]
      exact (dirVectors_adj_origin v (hsub v hv)).2
  · intro r hr s hs hadj
    rcases List.mem_cons.1 hr with rfl | hr'
    · exact Nat.zero_le _
    · obtain ⟨v, hv, rfl⟩ := List.mem_map.1 hr'
      exact Nat.succ_le_succ (Nat.zero_le _)
  · intro r hr
    rcases List.mem_cons.1 hr with rfl | hr'
    · show b = nbrCount rooms (0, 0)
      rw [nbrCount_seed_origin rooms vs hnd hsub hocc]
      exact hb
    · obtain ⟨v, hv, rfl⟩ := List.mem_map.1 hr'
      show 1 = nbrCount rooms (Room.pos (f v))
      rw [hposf, nbrCount_seed_cell rooms v (hsub v hv) vs hsub hocc]
  · intro r hr
    rcases List.mem_cons.1 hr with rfl | hr'
    · rfl
    · obtain ⟨v, hv, rfl⟩ := List.mem_map.1 hr'
      rfl
  · intro pre r post hdec hpre
    cases pre with
    | nil => exact absurd rfl hpre
    | cons p0 pre' =>
      rw [hrooms, List.cons_append] at hdec
      injection hdec with h1 h2
      obtain ⟨vs1, v, vs2, hvs, hpre', hrv, _⟩ :=
        map_eq_append_cons f vs pre' r post h2
      have hvmem : v ∈ vs := by rw [hvs]; simp
      have hpremap : (p0 :: pre').map Room.pos =
          (((0 : Int), (0 : Int))) :: vs1 := by
        rw [List.map_cons, ← h1, hpre', List.map_map]
        congr 1
        rw [show Room.pos ∘ f = id from funext fun w => hposf w, List.map_id]
      have hocc' : ∀ c, occupiedB (p0 :: pre') c = true ↔
          c ∈ ((((0 : Int), (0 : Int))) :: vs1) := by
        intro c
        rw [occupiedB_eq_decide, hpremap, decide_eq_true_eq]
      rw [hrv, hposf]
      exact nbrCount_seed_cell (p0 :: pre') v (hsub v hvmem) vs1
        (fun w hw => hsub w (by rw [hvs]; exact List.mem_append_left _ hw)) hocc'
  · rw [hrooms]
    simp only [List.map_cons, List.map_map, List.sum_cons, List.length_cons,
      List.length_map]
    have hsum : (vs.map (Room.neighborCount ∘ f)).sum = vs.length := by
      rw [show Room.neighborCount ∘ f = fun _ => 1 from funext fun v => rfl]
      exact sum_map_one vs
    rw [hsum]
    omega

theorem randint2to4_ge (kb : Nat) : 2 ≤ randint2to4 kb := Nat.le_add_right 2 _

theorem randint2to4_le (kb : Nat) : randint2to4 kb ≤ 4 := by
  have : kb % 3 < 3 := Nat.mod_lt kb (by omega)
  unfold randint2to4
  omega

/-- The seed step, with its shuffled direction list and `randint(2, 4)` draw,
establishes the invariant and produces `b + 1` rooms. -/
theorem initRooms_inv (basic : RoomType) (seedDirs : List Nat) (kb : Nat)
    (hperm : seedDirs.Perm [0, 1, 2, 3]) :
    Inv basic (initRooms basic seedDirs (randint2to4 kb)) ∧
      (initRooms basic seedDirs (randint2to4 kb)).length = randint2to4 kb + 1 := by
  set b := randint2to4 kb with hbdef
  have hb4 : b ≤ 4 := randint2to4_le kb
  have hlen4 : seedDirs.length = 4 := by rw [hperm.length_eq]; rfl
  have hnd : seedDirs.Nodup := (hperm.nodup_iff).2 (by decide)
  have hmem4 : ∀ d ∈ seedDirs, d < 4 := by
    intro d hd
    have hd' := hperm.subset hd
    simp at hd'
    omega
  have hdsnd : (seedDirs.take b).Nodup := (List.take_sublist b seedDirs).nodup hnd
  have hdsmem : ∀ d ∈ seedDirs.take b, d < 4 :=
    fun d hd => hmem4 d (List.take_subset b seedDirs hd)
  have hdslen : (seedDirs.take b).length = b := by
    rw [List.length_take, hlen4]
    omega
  have hvslen : ((seedDirs.take b).filterMap dirNumToVector).length = b := by
    rw [length_filterMap_eq_countP]
    rw [List.countP_eq_length.2 (fun a ha => dirNumToVector_isSome_of_lt (hdsmem a ha))]
    exact hdslen
  have hvsnd : ((seedDirs.take b).filterMap dirNumToVector).Nodup :=
    List.Nodup.filterMap (fun a a' v ha ha' => dirNumToVector_inj ha ha') hdsnd
  have hvssub : ∀ v ∈ (seedDirs.take b).filterMap dirNumToVector,
      v ∈ dirVectors := by
    intro v hv
    obtain ⟨a, _, hfa⟩ := List.mem_filterMap.1 hv
    exact mem_dirVectors_of_some hfa
  constructor
  · exact seed_inv basic b _ hvsnd hvssub hvslen.symm
  · rw [initRooms]
    simp only [List.length_cons, List.length_map]
    rw [hvslen]

/-! ### One growth step preserves the invariant -/

/-- Successful candidate placement: `tryPlace` succeeded exactly when some
tried cell `c` was unoccupied with exactly one already-placed neighbor `nb`;
the new state appends the new room (distance `nb`'s plus one, count 1) after
bumping `nb`. -/
theorem tryPlace_some {basic : RoomType} {rooms : List Room} {base : Room}
    {ds : List Nat} {rooms2 : List Room}
    (h : tryPlace basic rooms base ds = some rooms2) :
    ∃ c nb, neighborsOf rooms c = [nb] ∧ findRoom rooms c = none ∧
      rooms2 = bumpNeighbors rooms [nb] ++
        [⟨basic, c.1, c.2, 1, nb.distanceFromEntrance + 1⟩] := by
  induction ds with
  | nil => simp [tryPlace] at h
  | cons d ds ih =>
    rw [tryPlace] at h
    cases hd : dirNumToVector d with
    | none =>
      rw [hd] at h
      exact ih h
    | some v =>
      rw [hd] at h
      dsimp only at h
      by_cases hc : (neighborsOf rooms (base.x + v.1, base.y + v.2)).length = 1 ∧
          findRoom rooms (base.x + v.1, base.y + v.2) = none
      · rw [if_pos hc] at h
        injection h with h
        obtain ⟨hlen1, hnone⟩ := hc
        obtain ⟨nb, hnb⟩ := List.length_eq_one.1 hlen1
        refine ⟨(base.x + v.1, base.y + v.2), nb, hnb, hnone, ?_⟩
        rw [← h]
        unfold addRoom
        rw [hnb]
        rfl
      · rw [if_neg hc] at h
        exact ih h

/-- An accepted cell's unique neighbor: it is a placed room, adjacent to the
cell, and no other placed room is adjacent to the cell. -/
theorem neighbors_single_facts {rooms : List Room} {c : Coord} {nb : Room}
    (hnd : (rooms.map Room.pos).Nodup)
    (hnb : neighborsOf rooms c = [nb]) :
    nb ∈ rooms ∧ adj c nb.pos ∧ ∀ r ∈ rooms, adj c r.pos → r = nb := by
  have hmem : nb ∈ neighborsOf rooms c := by rw [hnb]; simp
  obtain ⟨v, hv, hfind⟩ := mem_neighborsOf.1 hmem
  obtain ⟨hnbr, hnbpos⟩ := findRoom_mem hfind
  have hadj : adj c nb.pos := by
    rw [adj_iff_add]
    exact ⟨v, hv, hnbpos⟩
  refine ⟨hnbr, hadj, ?_⟩
  intro r hr hradj
  obtain ⟨w, hw, hrpos⟩ := (adj_iff_add c r.pos).1 hradj
  have hfr : findRoom rooms r.pos = some r := findRoom_eq_some_of_mem hnd hr
  rw [hrpos] at hfr
  have hrmem : r ∈ neighborsOf rooms c := mem_neighborsOf.2 ⟨w, hw, hfr⟩
  rw [hnb] at hrmem
  simpa using hrmem

theorem append_single_decomp {α : Type _} (l : List α) (a : α) (pre : List α)
    (r : α) (post : List α) (h : l ++ [a] = pre ++ r :: post) :
    (post = [] ∧ pre = l ∧ r = a) ∨
      (∃ post2, post = post2 ++ [a] ∧ l = pre ++ r :: post2) := by
  rcases List.append_eq_append_iff.1 h with ⟨a', ha1, ha2⟩ | ⟨c', hc1, hc2⟩
  · cases a' with
    | nil =>
      rw [List.nil_append] at ha2
      injection ha2 with h1 h2
      exact Or.inl ⟨h2.symm, by rw [ha1, List.append_nil], h1.symm⟩
    | cons x xs =>
      exfalso
      have hlen := congrArg List.length ha2
      simp at hlen
  · cases c' with
    | nil =>
      injection hc2 with h1 h2
      exact Or.inl ⟨h2, by rw [hc1, List.append_nil], h1⟩
    | cons x xs =>
      rw [List.cons_append] at hc2
      injection hc2 with h1 h2
      subst h1
      exact Or.inr ⟨xs, h2, hc1⟩

theorem sum_map_nc_bump (rooms : List Room) (nb : Room) :
    ((rooms.map (bumpIfNbr [nb])).map Room.neighborCount).sum =
      (rooms.map Room.neighborCount).sum +
        rooms.countP (fun r => decide (nb.pos = r.pos)) := by
  induction rooms with
  | nil => rfl
  | cons a l ih =>
    simp only [List.map_cons, List.sum_cons, List.countP_cons, ih, bumpIfNbr_single]
    by_cases h : nb.pos = a.pos <;> simp [h] <;> omega

theorem rooms_ne_nil_of_entrance {rooms : List Room}
    (h : occupiedB rooms (0, 0) = true) : rooms ≠ [] := by
  intro hnil
  subst hnil
  simp [occupiedB, findRoom] at h

/-- Accepting a candidate cell preserves the invariant. -/
theorem addRoom_inv {basic : RoomType} {rooms : List Room} {c : Coord}
    {nb : Room} (hinv : Inv basic rooms)
    (hnb : neighborsOf rooms c = [nb]) (hnone : findRoom rooms c = none) :
    Inv basic (bumpNeighbors rooms [nb] ++
      [⟨basic, c.1, c.2, 1, nb.distanceFromEntrance + 1⟩]) := by
  obtain ⟨c1, c2⟩ := c
  dsimp only
  obtain ⟨hnbmem, hadj, huniq⟩ := neighbors_single_facts hinv.nodup hnb
  set nr : Room := ⟨basic, c1, c2, 1, nb.distanceFromEntrance + 1⟩ with hnr
  set rooms2 : List Room := bumpNeighbors rooms [nb] ++ [nr] with hrooms2
  have hnrpos : nr.pos = ((c1, c2) : Coord) := rfl
  have hnrd : nr.distanceFromEntrance = nb.distanceFromEntrance + 1 := rfl
  have hnrnc : nr.neighborCount = 1 := rfl
  have hnrt : nr.type = basic := rfl
  have hoccF : occupiedB rooms (c1, c2) = false := by
    unfold occupiedB
    rw [hnone]
    rfl
  have posmap2 : rooms2.map Room.pos = rooms.map Room.pos ++ [((c1, c2) : Coord)] := by
    rw [hrooms2, List.map_append, bumpNeighbors_map_pos]
    rfl
  have hcnotin : ((c1, c2) : Coord) ∉ rooms.map Room.pos := by
    intro hmem
    rw [occupiedB_eq_decide, decide_eq_false_iff_not] at hoccF
    exact hoccF hmem
  have hocc2 : ∀ p, occupiedB rooms2 p =
      (occupiedB rooms p || decide (((c1, c2) : Coord) = p)) := by
    intro p
    rw [hrooms2, occupiedB_append_single,
      occupiedB_congr (bumpNeighbors_map_pos rooms [nb])]
    rfl
  have hnc2 : ∀ p, nbrCount rooms2 p =
      nbrCount rooms p + (if adj p ((c1, c2) : Coord) then 1 else 0) := by
    intro p
    have hnew : occupiedB (bumpNeighbors rooms [nb]) nr.pos = false := by
      rw [occupiedB_congr (bumpNeighbors_map_pos rooms [nb])]
      exact hoccF
    rw [hrooms2, nbrCount_append_single hnew p,
      nbrCount_congr (bumpNeighbors_map_pos rooms [nb])]
    rfl
  have hmem2 : ∀ r2 ∈ rooms2, (∃ r ∈ rooms, r2 = bumpIfNbr [nb] r) ∨ r2 = nr := by
    intro r2 h2
    rw [hrooms2] at h2
    rcases List.mem_append.1 h2 with h2 | h2
    · obtain ⟨r, hr, hrr⟩ := List.mem_map.1 h2
      exact Or.inl ⟨r, hr, hrr.symm⟩
    · exact Or.inr (List.mem_singleton.1 h2)
  have hbumpmem : ∀ r ∈ rooms, bumpIfNbr [nb] r ∈ rooms2 := by
    intro r hr
    rw [hrooms2]
    exact List.mem_append_left _ (List.mem_map_of_mem _ hr)
  have hnotadj : ∀ r ∈ rooms, r ≠ nb → ¬ adj r.pos ((c1, c2) : Coord) := by
    intro r hr hne hadj2
    exact hne (huniq r hr (adj_symm hadj2))
  have hncnb : nbrCount rooms ((c1, c2) : Coord) = 1 := by
    unfold nbrCount
    rw [hnb]
    rfl
  refine ⟨?_, ?_, ?_, ?_, ?_, ?_, ?_, ?_, ?_⟩
  · rw [posmap2, List.nodup_append]
    refine ⟨hinv.nodup, List.nodup_singleton _, ?_⟩
    intro a ha hb
    rw [List.mem_singleton] at hb
    subst hb
    exact hcnotin ha
  · rw [hocc2, hinv.entrance]
    rfl
  · intro r2 h2
    rcases hmem2 r2 h2 with ⟨r, hr, rfl⟩ | rfl
    · rw [bumpIfNbr_dist, bumpIfNbr_pos]
      exact hinv.dist_zero_iff r hr
    · rw [hnrpos, hnrd]
      constructor
      · intro h
        exact absurd h (Nat.succ_ne_zero _)
      · intro h
        rw [h] at hoccF
        rw [hinv.entrance] at hoccF
        exact absurd hoccF (by simp)
  · intro r2 h2 hpos
    rcases hmem2 r2 h2 with ⟨r, hr, rfl⟩ | rfl
    · rw [bumpIfNbr_dist] at hpos
      obtain ⟨s, hs, hadj2, hd⟩ := hinv.descent r hr hpos
      refine ⟨bumpIfNbr [nb] s, hbumpmem s hs, ?_, ?_⟩
      · rw [bumpIfNbr_pos, bumpIfNbr_pos]
        exact hadj2
      · rw [bumpIfNbr_dist, bumpIfNbr_dist]
        exact hd
    · refine ⟨bumpIfNbr [nb] nb, hbumpmem nb hnbmem, ?_, ?_⟩
      · rw [bumpIfNbr_pos, hnrpos]
        exact hadj
      · rw [bumpIfNbr_dist, hnrd]
  · intro r2 h2 s2 hs2 hadj2
    rcases hmem2 r2 h2 with ⟨r, hr, rfl⟩ | rfl <;>
      rcases hmem2 s2 hs2 with ⟨s, hs, rfl⟩ | rfl
    · rw [bumpIfNbr_pos, bumpIfNbr_pos] at hadj2
      rw [bumpIfNbr_dist, bumpIfNbr_dist]
      exact hinv.lipschitz r hr s hs hadj2
    · rw [bumpIfNbr_pos, hnrpos] at hadj2
      rw [bumpIfNbr_dist, hnrd]
      have hreq : r = nb := huniq r hr (adj_symm hadj2)
      subst hreq
      omega
    · rw [hnrpos, bumpIfNbr_pos] at hadj2
      rw [hnrd, bumpIfNbr_dist]
      have hseq : s = nb := huniq s hs hadj2
      subst hseq
      omega
    · rw [hnrpos] at hadj2
      exact absurd hadj2 (adj_irrefl _)
  · intro r2 h2
    rcases hmem2 r2 h2 with ⟨r, hr, rfl⟩ | rfl
    · rw [bumpIfNbr_pos, hnc2, bumpIfNbr_single]
      by_cases hrb : nb.pos = r.pos
      · rw [if_pos hrb]
        have hreq : r = nb := pos_inj_of_nodup hinv.nodup r hr nb hnbmem hrb.symm
        subst hreq
        rw [if_pos (adj_symm hadj)]
        show r.neighborCount + 1 = nbrCount rooms r.pos + 1
        rw [hinv.nc_eq r hr]
      · rw [if_neg hrb]
        have hrneq : r ≠ nb := fun h => hrb (by rw [h])
        rw [if_neg (hnotadj r hr hrneq)]
        show r.neighborCount = nbrCount rooms r.pos + 0
        rw [hinv.nc_eq r hr, Nat.add_zero]
    · rw [hnrpos, hnc2, if_neg (adj_irrefl _), hnrnc, hncnb]
  · intro r2 h2
    rcases hmem2 r2 h2 with ⟨r, hr, rfl⟩ | rfl
    · rw [bumpIfNbr_type]
      exact hinv.types r hr
    · exact hnrt
  · intro pre r2 post hdec hpre
    rw [hrooms2] at hdec
    rcases append_single_decomp _ _ _ _ _ hdec with
      ⟨hpost, hpreeq, hr2⟩ | ⟨post2, hpost, hbump⟩
    · subst hr2
      subst hpreeq
      rw [nbrCount_congr (bumpNeighbors_map_pos rooms [nb])]
      exact hncnb
    · obtain ⟨pre0, r0, post0, hrooms0, hpre0, hr0, _⟩ :=
        map_eq_append_cons (bumpIfNbr [nb]) rooms pre r2 post2 hbump
      have hprepos : pre.map Room.pos = pre0.map Room.pos := by
        rw [hpre0]
        exact bumpNeighbors_map_pos pre0 [nb]
      rw [hr0, bumpIfNbr_pos, nbrCount_congr hprepos]
      apply hinv.growth_one pre0 r0 post0 hrooms0
      intro h0
      apply hpre
      rw [hpre0, h0]
      rfl
  · rw [hrooms2, List.map_append, List.sum_append]
    rw [show (bumpNeighbors rooms [nb]).map Room.neighborCount =
        (rooms.map (bumpIfNbr [nb])).map Room.neighborCount from rfl]
    rw [sum_map_nc_bump rooms nb]
    have hcount : rooms.countP (fun r => decide (nb.pos = r.pos)) =
        ([nb] : List Room).length := by
      apply countP_eq_length_of_mem_iff ?_ (List.Nodup.of_map Room.pos hinv.nodup)
        (List.nodup_singleton nb)
      · intro v hv
        rw [List.mem_singleton] at hv
        subst hv
        exact hnbmem
      · intro r hr
        rw [decide_eq_true_eq, List.mem_singleton]
        constructor
        · intro h
          exact pos_inj_of_nodup hinv.nodup r hr nb hnbmem h.symm
        · rintro rfl
          rfl
    rw [hcount]
    have hne : rooms ≠ [] := rooms_ne_nil_of_entrance hinv.entrance
    have hlen1 : 1 ≤ rooms.length := List.length_pos.2 hne
    have hsum := hinv.nc_sum
    simp only [List.map_cons, List.map_nil, List.sum_cons, List.sum_nil,
      List.length_append, List.length_map, List.length_cons, List.length_nil,
      List.length_singleton, hnrnc]
    rw [show (bumpNeighbors rooms [nb]).length = rooms.length from by
      unfold bumpNeighbors; rw [List.length_map]]
    omega

/-! ### Growth step and loop -/

theorem growStep_some_shape {basic : RoomType} {rooms : List Room} {k : Nat}
    {ds : List Nat} {rooms2 : List Room}
    (h : growStep basic rooms k ds = some rooms2) :
    ∃ c nb, neighborsOf rooms c = [nb] ∧ findRoom rooms c = none ∧
      rooms2 = bumpNeighbors rooms [nb] ++
        [⟨basic, c.1, c.2, 1, nb.distanceFromEntrance + 1⟩] := by
  unfold growStep at h
  cases hbase : (rooms.drop 1).get? k with
  | none => rw [hbase] at h; exact absurd h (by simp)
  | some base =>
    rw [hbase] at h
    exact tryPlace_some h

theorem growStep_some_inv {basic : RoomType} {rooms : List Room} {k : Nat}
    {ds : List Nat} {rooms2 : List Room} (hinv : Inv basic rooms)
    (h : growStep basic rooms k ds = some rooms2) : Inv basic rooms2 := by
  obtain ⟨c, nb, hnb, hnone, rfl⟩ := growStep_some_shape h
  exact addRoom_inv hinv hnb hnone

theorem growStep_some_length {basic : RoomType} {rooms : List Room} {k : Nat}
    {ds : List Nat} {rooms2 : List Room}
    (h : growStep basic rooms k ds = some rooms2) :
    rooms2.length = rooms.length + 1 := by
  obtain ⟨c, nb, _, _, rfl⟩ := growStep_some_shape h
  rw [List.length_append, show (bumpNeighbors rooms [nb]).length = rooms.length
    from by unfold bumpNeighbors; rw [List.length_map]]
  rfl

/-- An existing room persists through a growth step at its position: its
neighbor count can only grow, everything else is unchanged. -/
theorem growStep_some_persist {basic : RoomType} {rooms : List Room} {k : Nat}
    {ds : List Nat} {rooms2 : List Room}
    (h : growStep basic rooms k ds = some rooms2) :
    ∀ p r, findRoom rooms p = some r → ∃ r2, findRoom rooms2 p = some r2 ∧
      r.neighborCount ≤ r2.neighborCount ∧
      r2.distanceFromEntrance = r.distanceFromEntrance ∧
      r2.type = r.type ∧ r2.x = r.x ∧ r2.y = r.y := by
  obtain ⟨c, nb, hnb, hnone, rfl⟩ := growStep_some_shape h
  intro p r hfind
  have h1 : findRoom (bumpNeighbors rooms [nb]) p = some (bumpIfNbr [nb] r) := by
    rw [findRoom_bump, hfind]
    rfl
  refine ⟨bumpIfNbr [nb] r, findRoom_append_some h1, bumpIfNbr_nc_ge _ _,
    bumpIfNbr_dist _ _, bumpIfNbr_type _ _,
    congrArg Prod.fst (bumpIfNbr_pos [nb] r),
    congrArg Prod.snd (bumpIfNbr_pos [nb] r)⟩

theorem growLoop_inv {basic : RoomType} {size : Nat} :
    ∀ (attempts : List (Nat × List Nat)) (rooms : List Room) (i : Nat)
      (out : List Room), Inv basic rooms →
      growLoop basic size rooms i attempts = some out → Inv basic out := by
  intro attempts
  induction attempts with
  | nil =>
    intro rooms i out hinv h
    simp only [growLoop] at h
    by_cases hi : i < size
    · rw [if_pos hi] at h
      exact absurd h (by simp)
    · rw [if_neg hi] at h
      injection h with h
      subst h
      exact hinv
  | cons a rest ih =>
    obtain ⟨k, ds⟩ := a
    intro rooms i out hinv h
    simp only [growLoop] at h
    by_cases hi : i < size
    · rw [if_pos hi] at h
      cases hg : growStep basic rooms k ds with
      | some rooms2 =>
        rw [hg] at h
        exact ih rooms2 (i + 1) out (growStep_some_inv hinv hg) h
      | none =>
        rw [hg] at h
        exact ih rooms i out hinv h
    · rw [if_neg hi] at h
      injection h with h
      subst h
      exact hinv

theorem growLoop_length {basic : RoomType} {size : Nat} :
    ∀ (attempts : List (Nat × List Nat)) (rooms : List Room) (i : Nat)
      (out : List Room), rooms.length = i + 1 → i ≤ size →
      growLoop basic size rooms i attempts = some out →
      out.length = size + 1 := by
  intro attempts
  induction attempts with
  | nil =>
    intro rooms i out hlen hle h
    simp only [growLoop] at h
    by_cases hi : i < size
    · rw [if_pos hi] at h
      exact absurd h (by simp)
    · rw [if_neg hi] at h
      injection h with h
      subst h
      have : i = size := by omega
      rw [hlen, this]
  | cons a rest ih =>
    obtain ⟨k, ds⟩ := a
    intro rooms i out hlen hle h
    simp only [growLoop] at h
    by_cases hi : i < size
    · rw [if_pos hi] at h
      cases hg : growStep basic rooms k ds with
      | some rooms2 =>
        rw [hg] at h
        exact ih rooms2 (i + 1) out
          (by rw [growStep_some_length hg, hlen]) (by omega) h
      | none =>
        rw [hg] at h
        exact ih rooms i out hlen hle h
    · rw [if_neg hi] at h
      injection h with h
      subst h
      have : i = size := by omega
      rw [hlen, this]

theorem growTrace_head (basic : RoomType) (size : Nat) :
    ∀ (attempts : List (Nat × List Nat)) (rooms : List Room) (i : Nat),
      (growTrace basic size rooms i attempts).head? = some rooms := by
  intro attempts rooms i
  cases attempts with
  | nil => rfl
  | cons a rest =>
    obtain ⟨k, ds⟩ := a
    simp only [growTrace]
    by_cases hi : i < size
    · rw [if_pos hi]
      cases growStep basic rooms k ds <;> rfl
    · rw [if_neg hi]
      rfl

theorem growTrace_inv {basic : RoomType} {size : Nat} :
    ∀ (attempts : List (Nat × List Nat)) (rooms : List Room) (i : Nat),
      Inv basic rooms →
      ∀ st ∈ growTrace basic size rooms i attempts, Inv basic st := by
  intro attempts
  induction attempts with
  | nil =>
    intro rooms i hinv st hst
    simp only [growTrace, List.mem_singleton] at hst
    subst hst
    exact hinv
  | cons a rest ih =>
    obtain ⟨k, ds⟩ := a
    intro rooms i hinv st hst
    simp only [growTrace] at hst
    by_cases hi : i < size
    · rw [if_pos hi] at hst
      cases hg : growStep basic rooms k ds with
      | some rooms2 =>
        rw [hg] at hst
        rcases List.mem_cons.1 hst with rfl | hst'
        · exact hinv
        · exact ih rooms2 (i + 1) (growStep_some_inv hinv hg) st hst'
      | none =>
        rw [hg] at hst
        rcases List.mem_cons.1 hst with rfl | hst'
        · exact hinv
        · exact ih rooms i hinv st hst'
    · rw [if_neg hi] at hst
      rw [List.mem_singleton] at hst
      subst hst
      exact hinv

theorem growLoop_mem_trace {basic : RoomType} {size : Nat} :
    ∀ (attempts : List (Nat × List Nat)) (rooms : List Room) (i : Nat)
      (out : List Room), growLoop basic size rooms i attempts = some out →
      out ∈ growTrace basic size rooms i attempts := by
  intro attempts
  induction attempts with
  | nil =>
    intro rooms i out h
    simp only [growLoop] at h
    by_cases hi : i < size
    · rw [if_pos hi] at h
      exact absurd h (by simp)
    · rw [if_neg hi] at h
      injection h with h
      subst h
      simp [growTrace]
  | cons a rest ih =>
    obtain ⟨k, ds⟩ := a
    intro rooms i out h
    simp only [growLoop, growTrace] at h ⊢
    by_cases hi : i < size
    · rw [if_pos hi] at h ⊢
      cases hg : growStep basic rooms k ds with
      | some rooms2 =>
        rw [hg] at h
        exact List.mem_cons_of_mem _ (ih rooms2 (i + 1) out h)
      | none =>
        rw [hg] at h
        exact List.mem_cons_of_mem _ (ih rooms i out h)
    · rw [if_neg hi] at h ⊢
      injection h with h
      subst h
      simp

/-- The neighbor-count-monotone step relation along the visited states. -/
theorem growTrace_chain (basic : RoomType) (size : Nat) :
    ∀ (attempts : List (Nat × List Nat)) (rooms : List Room) (i : Nat),
      List.Chain' (fun s t => ∀ p r r2, findRoom s p = some r →
          findRoom t p = some r2 → r.neighborCount ≤ r2.neighborCount)
        (growTrace basic size rooms i attempts) := by
  intro attempts
  induction attempts with
  | nil =>
    intro rooms i
    simp [growTrace]
  | cons a rest ih =>
    obtain ⟨k, ds⟩ := a
    intro rooms i
    simp only [growTrace]
    by_cases hi : i < size
    · rw [if_pos hi]
      cases hg : growStep basic rooms k ds with
      | some rooms2 =>
        apply List.Chain'.cons'
        · exact ih rooms2 (i + 1)
        · intro t ht
          rw [growTrace_head basic size rest rooms2 (i + 1)] at ht
          rw [Option.mem_def] at ht
          injection ht with ht
          subst ht
          intro p r r2 hfr hfr2
          obtain ⟨r2', hfind2, hle, _, _, _, _⟩ := growStep_some_persist hg p r hfr
          rw [hfind2] at hfr2
          injection hfr2 with hfr2
          subst hfr2
          exact hle
      | none =>
        apply List.Chain'.cons'
        · exact ih rooms i
        · intro t ht
          rw [growTrace_head basic size rest rooms i] at ht
          rw [Option.mem_def] at ht
          injection ht with ht
          subst ht
          intro p r r2 hfr hfr2
          rw [hfr] at hfr2
          injection hfr2 with hfr2
          subst hfr2
          exact le_rfl
    · rw [if_neg hi]
      simp

/-! ### Cached distances are exact graph distances -/

theorem pathTo_occupied {rooms : List Room} {c : Coord} {n : Nat}
    (h : PathTo rooms c n) : occupiedB rooms c = true := by
  cases h with
  | entrance hocc => exact hocc
  | step _ _ hocc => exact hocc

theorem inv_path {basic : RoomType} {rooms : List Room} (hinv : Inv basic rooms) :
    ∀ d, ∀ r ∈ rooms, r.distanceFromEntrance = d → PathTo rooms r.pos d := by
  intro d
  induction d using Nat.strong_induction_on with
  | _ d ih =>
    intro r hr hd
    cases d with
    | zero =>
      have hpos : r.pos = (0, 0) := (hinv.dist_zero_iff r hr).1 hd
      rw [hpos]
      exact PathTo.entrance hinv.entrance
    | succ d2 =>
      obtain ⟨s, hs, hadj, hsd⟩ := hinv.descent r hr (by omega)
      have hps := ih d2 (by omega) s hs (by omega)
      exact PathTo.step hps (adj_symm hadj) (occupiedB_of_mem hr)

theorem inv_path_lower {basic : RoomType} {rooms : List Room}
    (hinv : Inv basic rooms) :
    ∀ (c : Coord) (n : Nat), PathTo rooms c n → ∀ r ∈ rooms, r.pos = c →
      r.distanceFromEntrance ≤ n := by
  intro c n hpath
  induction hpath with
  | entrance hocc =>
    intro r hr hpos
    have := (hinv.dist_zero_iff r hr).2 hpos
    omega
  | @step c2 d2 n2 hp hadj hocc ih =>
    intro r hr hpos
    obtain ⟨s, hs, hspos⟩ := occupiedB_some (pathTo_occupied hp)
    have hstep : r.distanceFromEntrance ≤ s.distanceFromEntrance + 1 := by
      apply hinv.lipschitz r hr s hs
      rw [hpos, hspos]
      exact adj_symm hadj
    have hsle : s.distanceFromEntrance ≤ n2 := ih s hs hspos
    omega

/-- On any invariant-satisfying state, every room's frozen
`distanceFromEntrance` is exactly the shortest-path distance to the
entrance through occupied cells. -/
theorem inv_dist_exact {basic : RoomType} {rooms : List Room}
    (hinv : Inv basic rooms) :
    ∀ r ∈ rooms, PathTo rooms r.pos r.distanceFromEntrance ∧
      ∀ n, PathTo rooms r.pos n → r.distanceFromEntrance ≤ n :=
  fun r hr => ⟨inv_path hinv r.distanceFromEntrance r hr rfl,
    fun n hp => inv_path_lower hinv r.pos n hp r hr rfl⟩

/-! ### The assignment pass only changes types -/

/-- The type-independent skeleton of a room list: positions, neighbor counts
and distances, in order. -/
def skel (l : List Room) : List (Coord × Nat × Nat) :=
  l.map (fun r => (r.pos, r.neighborCount, r.distanceFromEntrance))

theorem skel_setTypeAt (rooms : List Room) (p : Coord) (t : RoomType) :
    skel (setTypeAt rooms p t) = skel rooms := by
  unfold skel setTypeAt
  rw [List.map_map]
  apply List.map_congr_left
  intro r _
  simp only [Function.comp_apply, setTypeIf_pos, setTypeIf_nc, setTypeIf_dist]

theorem skel_assignLoop {reg : Registry} {size : Nat} {us : Nat → Rat} :
    ∀ (des : List Room) (rooms : List Room) (uIdx : Nat) (occ : OccCounts)
      (out : List Room × OccCounts),
      assignLoop reg size us rooms uIdx des occ = .ok out →
      skel out.1 = skel rooms := by
  intro des
  induction des with
  | nil =>
    intro rooms uIdx occ out h
    simp only [assignLoop] at h
    injection h with h
    subst h
    rfl
  | cons de rest ih =>
    intro rooms uIdx occ out h
    simp only [assignLoop] at h
    cases hgt : reg.getRandomType de.distanceFromEntrance occ size (us uIdx) with
    | error e =>
      rw [hgt] at h
      exact absurd h (by simp)
    | ok t =>
      rw [hgt] at h
      rw [ih _ _ _ _ h, skel_setTypeAt]

theorem skel_finalize {reg : Registry} {size : Nat} {rooms : List Room}
    {shufIdx : List Nat} {us : Nat → Rat} {out : List Room × OccCounts}
    (h : finalize reg size rooms shufIdx us = .ok out) :
    skel out.1 = skel rooms := by
  unfold finalize at h
  cases he : reg.getType "Entrance" with
  | error e =>
    rw [he] at h
    exact absurd h (by simp)
  | ok entT =>
    rw [he] at h
    dsimp only at h
    cases hlast : (sortByDist ((setTypeAt rooms (0, 0) entT).filter
        (fun r => decide (r.neighborCount = 1)))).getLast? with
    | none =>
      rw [hlast] at h
      exact absurd h (by simp)
    | some lastDE =>
      rw [hlast] at h
      cases hst : reg.getType "Stairs" with
      | error e =>
        rw [hst] at h
        exact absurd h (by simp)
      | ok stT =>
        rw [hst] at h
        dsimp only at h
        rw [skel_assignLoop _ _ _ _ _ h, skel_setTypeAt, skel_setTypeAt]

theorem dungeonInit_some {reg : Registry} {basic : RoomType} {size : Nat}
    {seedDirs : List Nat} {kb : Nat} {attempts : List (Nat × List Nat)}
    {shufIdx : List Nat} {us : Nat → Rat}
    {res : Except PyErr (List Room × OccCounts)}
    (h : dungeonInit reg basic size seedDirs kb attempts shufIdx us = some res) :
    ∃ grown, growLoop basic size (initRooms basic seedDirs (randint2to4 kb))
        (randint2to4 kb) attempts = some grown ∧
      finalize reg size grown shufIdx us = res := by
  unfold dungeonInit at h
  dsimp only at h
  cases hg : growLoop basic size (initRooms basic seedDirs (randint2to4 kb))
      (randint2to4 kb) attempts with
  | none =>
    rw [hg] at h
    exact absurd h (by simp)
  | some grown =>
    rw [hg] at h
    injection h with h
    exact ⟨grown, rfl, h⟩

theorem skel_map_pos {l1 l2 : List Room} (h : skel l1 = skel l2) :
    l1.map Room.pos = l2.map Room.pos := by
  have h2 := congrArg (List.map Prod.fst) h
  unfold skel at h2
  rw [List.map_map, List.map_map] at h2
  exact h2

theorem skel_length {l1 l2 : List Room} (h : skel l1 = skel l2) :
    l1.length = l2.length := by
  have h2 := congrArg List.length h
  unfold skel at h2
  rw [List.length_map, List.length_map] at h2
  exact h2

theorem skel_mem {l1 l2 : List Room} (h : skel l1 = skel l2) :
    ∀ r ∈ l1, ∃ s ∈ l2, s.pos = r.pos ∧ s.neighborCount = r.neighborCount ∧
      s.distanceFromEntrance = r.distanceFromEntrance := by
  intro r hr
  have hmem : (r.pos, r.neighborCount, r.distanceFromEntrance) ∈ skel l2 := by
    rw [← h]
    exact List.mem_map_of_mem _ hr
  obtain ⟨s, hs, hse⟩ := List.mem_map.1 hmem
  obtain ⟨h1, h2⟩ := Prod.ext_iff.1 hse
  obtain ⟨h3, h4⟩ := Prod.ext_iff.1 h2
  exact ⟨s, hs, h1, h3, h4⟩

theorem pathTo_congr {l1 l2 : List Room}
    (h : l1.map Room.pos = l2.map Room.pos) :
    ∀ {c : Coord} {n : Nat}, PathTo l1 c n → PathTo l2 c n := by
  intro c n hp
  induction hp with
  | entrance hocc =>
    exact PathTo.entrance (by rw [← occupiedB_congr h]; exact hocc)
  | step hp hadj hocc ih =>
    exact PathTo.step ih hadj (by rw [← occupiedB_congr h]; exact hocc)

/-! ### Claim C2: room count (corrected) -/

/-- Project a completed generation onto its room list (empty on the failure
branches). -/
def roomsOf (o : Option (Except PyErr (List Room × OccCounts))) : List Room :=
  match o with
  | some (.ok p) => p.1
  | _ => []

/-- The concrete growth-loop random data used by the witnesses: grow a
corridor northward from the seed at `(0, 1)`. -/
def demoAttempts : List (Nat × List Nat) :=
  [(0, [0, 1, 2, 3]), (2, [0, 1, 2, 3]), (3, [0, 1, 2, 3])]

/-- The dungeon produced by `dungeonInit progReg basicT 5 [0,1,2,3] 0
demoAttempts [0] (fun _ => 0)` (checked by `demo_run`). -/
def demoRooms : List Room :=
  [⟨⟨"Entrance", [255, 255, 0]⟩, 0, 0, 2, 0⟩,
   ⟨⟨"Basic", [255, 255, 255]⟩, 0, 1, 2, 1⟩,
   ⟨⟨"Greenhouse", [0, 255, 0]⟩, 1, 0, 1, 1⟩,
   ⟨⟨"Basic", [255, 255, 255]⟩, 0, 2, 2, 2⟩,
   ⟨⟨"Basic", [255, 255, 255]⟩, 0, 3, 2, 3⟩,
   ⟨⟨"Stairs", [255, 0, 0]⟩, 0, 4, 1, 4⟩]

def demoOcc : OccCounts := [(⟨"Greenhouse", [0, 255, 0]⟩, 1)]

theorem demo_run :
    dungeonInit progReg basicT 5 [0, 1, 2, 3] 0 demoAttempts [0] (fun _ => 0) =
      some (.ok (demoRooms, demoOcc)) := rfl

/-- C2 counterexample: a completed generation with target size 5 placed 2
seed rooms yet has 6 rooms in total, not 5 + 2 = 7 as the claim states. -/
theorem C2_room_count_counterexample :
    randint2to4 0 = 2 ∧
    (roomsOf (dungeonInit progReg basicT 5 [0, 1, 2, 3] 0 demoAttempts [0]
      (fun _ => 0))).length = 6 ∧ (6 : Nat) ≠ 5 + 2 := by
  refine ⟨rfl, rfl, by decide⟩

/-- C2 (amended): a successfully generated dungeon of target size `N ≥ 5`
has exactly `N + 1` rooms — the entrance plus the `N` non-entrance rooms
counted by the loop counter `i` (which starts at the seed count and ends at
`N`) — not `N` plus the seed count. -/
theorem C2_room_count (reg : Registry) (basic : RoomType) (size : Nat)
    (seedDirs : List Nat) (kb : Nat) (attempts : List (Nat × List Nat))
    (shufIdx : List Nat) (us : Nat → Rat) (rooms2 : List Room)
    (occ : OccCounts) (hsize : 5 ≤ size)
    (hperm : seedDirs.Perm [0, 1, 2, 3])
    (hgen : dungeonInit reg basic size seedDirs kb attempts shufIdx us =
      some (.ok (rooms2, occ))) :
    rooms2.length = size + 1 := by
  obtain ⟨grown, hgrow, hfin⟩ := dungeonInit_some hgen
  have hlen := growLoop_length attempts _ (randint2to4 kb) grown
    (initRooms_inv basic seedDirs kb hperm).2
    (by have := randint2to4_le kb; omega) hgrow
  rw [skel_length (skel_finalize hfin), hlen]

/-- Witness for the amended C2 at the concrete demo generation. -/
theorem C2_room_count_witness :
    (5 ≤ 5 ∧ ([0, 1, 2, 3] : List Nat).Perm [0, 1, 2, 3]) ∧
    demoRooms.length = 5 + 1 :=
  ⟨⟨le_rfl, List.Perm.refl _⟩,
    C2_room_count progReg basicT 5 [0, 1, 2, 3] 0 demoAttempts [0] (fun _ => 0)
      demoRooms demoOcc le_rfl (List.Perm.refl _) demo_run⟩

/-! ### Claim C1: the room set is a tree rooted at the entrance -/

/-- C1: in every successfully completed generation, the placed rooms form a
tree under 4-adjacency rooted at the entrance: every room is joined to the
entrance cell by a path through placed rooms; the per-room neighbor counts
sum to `2 * (rooms - 1)`, i.e. the undirected edge count is one less than
the room count; and, taking the rooms in creation order, every room except
the entrance (head) had exactly one already-placed neighbor at the moment it
was created (seed rooms touch only the entrance; grown rooms are accepted
only with exactly one neighbor). -/
theorem C1_tree (reg : Registry) (basic : RoomType) (size : Nat)
    (seedDirs : List Nat) (kb : Nat) (attempts : List (Nat × List Nat))
    (shufIdx : List Nat) (us : Nat → Rat) (rooms2 : List Room)
    (occ : OccCounts) (hperm : seedDirs.Perm [0, 1, 2, 3])
    (hgen : dungeonInit reg basic size seedDirs kb attempts shufIdx us =
      some (.ok (rooms2, occ))) :
    (∀ r ∈ rooms2, ∃ n, PathTo rooms2 r.pos n) ∧
    (rooms2.map (fun r => nbrCount rooms2 r.pos)).sum =
      2 * (rooms2.length - 1) ∧
    (∀ pre r post, rooms2 = pre ++ r :: post → pre ≠ [] →
      nbrCount pre r.pos = 1) := by
  obtain ⟨grown, hgrow, hfin⟩ := dungeonInit_some hgen
  have hinv : Inv basic grown :=
    growLoop_inv attempts _ (randint2to4 kb) grown
      (initRooms_inv basic seedDirs kb hperm).1 hgrow
  have hskel : skel rooms2 = skel grown := skel_finalize hfin
  have hpos : rooms2.map Room.pos = grown.map Room.pos := skel_map_pos hskel
  refine ⟨?_, ?_, ?_⟩
  · intro r hr
    obtain ⟨g, hg, hgp, _, hgd⟩ := skel_mem hskel r hr
    refine ⟨g.distanceFromEntrance, ?_⟩
    rw [← hgp]
    exact pathTo_congr hpos.symm (inv_path hinv g.distanceFromEntrance g hg rfl)
  · have h1 : rooms2.map (fun r => nbrCount rooms2 r.pos) =
        (rooms2.map Room.pos).map (fun p => nbrCount rooms2 p) := by
      rw [List.map_map]
      rfl
    have h2 : (fun p => nbrCount rooms2 p) = fun p => nbrCount grown p :=
      funext (fun p => nbrCount_congr hpos p)
    have h3 : (grown.map Room.pos).map (fun p => nbrCount grown p) =
        grown.map (fun r => nbrCount grown r.pos) := by
      rw [List.map_map]
      rfl
    have h4 : grown.map (fun r => nbrCount grown r.pos) =
        grown.map Room.neighborCount :=
      List.map_congr_left (fun r hr => (hinv.nc_eq r hr).symm)
    rw [h1, hpos, h2, h3, h4, hinv.nc_sum, skel_length hskel]
  · intro pre r post hdec hpre
    have hg2 : grown.map (fun r => (r.pos, r.neighborCount,
        r.distanceFromEntrance)) = skel pre ++ (r.pos, r.neighborCount,
        r.distanceFromEntrance) :: skel post := by
      show skel grown = _
      rw [← hskel, hdec]
      unfold skel
      rw [List.map_append, List.map_cons]
    obtain ⟨pre0, r0, post0, hgdec, hpre0, hr0, _⟩ :=
      map_eq_append_cons _ grown (skel pre)
        ((r.pos, r.neighborCount, r.distanceFromEntrance)) (skel post) hg2
    have hprepos : pre.map Room.pos = pre0.map Room.pos :=
      skel_map_pos (by rw [hpre0]; rfl)
    have hr0pos : r0.pos = r.pos := by
      rw [Prod.ext_iff] at hr0
      exact hr0.1.symm
    rw [nbrCount_congr hprepos, ← hr0pos]
    apply hinv.growth_one pre0 r0 post0 hgdec
    intro h0
    apply hpre
    rw [h0] at hpre0
    have h6 := congrArg List.length hpre0
    unfold skel at h6
    rw [List.length_map, List.length_map] at h6
    exact List.length_eq_zero.1 h6

/-- Witness for C1 at the concrete demo generation. -/
theorem C1_tree_witness :
    ([0, 1, 2, 3] : List Nat).Perm [0, 1, 2, 3] ∧
    dungeonInit progReg basicT 5 [0, 1, 2, 3] 0 demoAttempts [0] (fun _ => 0) =
      some (.ok (demoRooms, demoOcc)) ∧
    ((∀ r ∈ demoRooms, ∃ n, PathTo demoRooms r.pos n) ∧
      (demoRooms.map (fun r => nbrCount demoRooms r.pos)).sum =
        2 * (demoRooms.length - 1) ∧
      (∀ pre r post, demoRooms = pre ++ r :: post → pre ≠ [] →
        nbrCount pre r.pos = 1)) :=
  ⟨List.Perm.refl _, demo_run,
    C1_tree progReg basicT 5 [0, 1, 2, 3] 0 demoAttempts [0] (fun _ => 0)
      demoRooms demoOcc (List.Perm.refl _) demo_run⟩

/-! ### Claim C6: neighbor-count cache consistency -/

/-- C6: at the end of generation every room's cached `neighborCount` equals
the number of its 4-adjacent cells occupied by rooms, and the count never
decreases during generation: consecutive states of the growth loop relate
every persisting room to one with a count at least as large (the assignment
pass then never touches counts, as the first conjunct shows on the final
state). -/
theorem C6_neighbor_cache (reg : Registry) (basic : RoomType) (size : Nat)
    (seedDirs : List Nat) (kb : Nat) (attempts : List (Nat × List Nat))
    (shufIdx : List Nat) (us : Nat → Rat) (rooms2 : List Room)
    (occ : OccCounts) (hperm : seedDirs.Perm [0, 1, 2, 3])
    (hgen : dungeonInit reg basic size seedDirs kb attempts shufIdx us =
      some (.ok (rooms2, occ))) :
    (∀ r ∈ rooms2, r.neighborCount = nbrCount rooms2 r.pos) ∧
    List.Chain' (fun s t => ∀ p r r2, findRoom s p = some r →
        findRoom t p = some r2 → r.neighborCount ≤ r2.neighborCount)
      (growTrace basic size (initRooms basic seedDirs (randint2to4 kb))
        (randint2to4 kb) attempts) := by
  obtain ⟨grown, hgrow, hfin⟩ := dungeonInit_some hgen
  have hinv : Inv basic grown :=
    growLoop_inv attempts _ (randint2to4 kb) grown
      (initRooms_inv basic seedDirs kb hperm).1 hgrow
  have hskel : skel rooms2 = skel grown := skel_finalize hfin
  have hpos : rooms2.map Room.pos = grown.map Room.pos := skel_map_pos hskel
  refine ⟨?_, growTrace_chain basic size attempts _ _⟩
  intro r hr
  obtain ⟨g, hg, hgp, hgnc, _⟩ := skel_mem hskel r hr
  rw [← hgnc, hinv.nc_eq g hg, ← hgp, nbrCount_congr hpos]

/-- Witness for C6 at the concrete demo generation. -/
theorem C6_neighbor_cache_witness :
    ([0, 1, 2, 3] : List Nat).Perm [0, 1, 2, 3] ∧
    ((∀ r ∈ demoRooms, r.neighborCount = nbrCount demoRooms r.pos) ∧
      List.Chain' (fun s t => ∀ p r r2, findRoom s p = some r →
          findRoom t p = some r2 → r.neighborCount ≤ r2.neighborCount)
        (growTrace basicT 5 (initRooms basicT [0, 1, 2, 3] (randint2to4 0))
          (randint2to4 0) demoAttempts)) :=
  ⟨List.Perm.refl _,
    C6_neighbor_cache progReg basicT 5 [0, 1, 2, 3] 0 demoAttempts [0]
      (fun _ => 0) demoRooms demoOcc (List.Perm.refl _) demo_run⟩

/-! ### Claim C10: frozen distances are true shortest-path distances -/

/-- C10: at every state the growth loop visits (the seed state included) and
in the finished dungeon, each room's frozen `distanceFromEntrance` is
exactly the length of a shortest path from the room to the entrance through
the rooms placed at that point: growth never connects two existing rooms, so
the cached `min(neighbor distances) + 1` never goes stale. -/
theorem C10_distances_exact (reg : Registry) (basic : RoomType) (size : Nat)
    (seedDirs : List Nat) (kb : Nat) (attempts : List (Nat × List Nat))
    (shufIdx : List Nat) (us : Nat → Rat)
    (hperm : seedDirs.Perm [0, 1, 2, 3]) :
    (∀ st ∈ growTrace basic size (initRooms basic seedDirs (randint2to4 kb))
        (randint2to4 kb) attempts,
      ∀ r ∈ st, PathTo st r.pos r.distanceFromEntrance ∧
        ∀ n, PathTo st r.pos n → r.distanceFromEntrance ≤ n) ∧
    (∀ rooms2 occ,
      dungeonInit reg basic size seedDirs kb attempts shufIdx us =
        some (.ok (rooms2, occ)) →
      ∀ r ∈ rooms2, PathTo rooms2 r.pos r.distanceFromEntrance ∧
        ∀ n, PathTo rooms2 r.pos n → r.distanceFromEntrance ≤ n) := by
  constructor
  · intro st hst
    exact inv_dist_exact (growTrace_inv attempts _ (randint2to4 kb)
      (initRooms_inv basic seedDirs kb hperm).1 st hst)
  · intro rooms2 occ hgen
    obtain ⟨grown, hgrow, hfin⟩ := dungeonInit_some hgen
    have hinv : Inv basic grown :=
      growLoop_inv attempts _ (randint2to4 kb) grown
        (initRooms_inv basic seedDirs kb hperm).1 hgrow
    have hskel : skel rooms2 = skel grown := skel_finalize hfin
    have hpos : rooms2.map Room.pos = grown.map Room.pos := skel_map_pos hskel
    intro r hr
    obtain ⟨g, hg, hgp, _, hgd⟩ := skel_mem hskel r hr
    obtain ⟨hpath, hlower⟩ := inv_dist_exact hinv g hg
    constructor
    · rw [← hgp, ← hgd]
      exact pathTo_congr hpos.symm hpath
    · intro n hp
      rw [← hgd]
      apply hlower
      rw [hgp]
      exact pathTo_congr hpos hp

/-! ### The stable sort of the dead ends -/

theorem insertByDist_perm (r : Room) :
    ∀ l : List Room, List.Perm (insertByDist r l) (r :: l) := by
  intro l
  induction l with
  | nil => exact List.Perm.refl _
  | cons s ss ih =>
    unfold insertByDist
    by_cases h : r.distanceFromEntrance ≤ s.distanceFromEntrance
    · rw [if_pos h]
    · rw [if_neg h]
      exact (ih.cons s).trans (List.Perm.swap r s ss)

theorem sortByDist_perm : ∀ l : List Room, List.Perm (sortByDist l) l := by
  intro l
  induction l with
  | nil => exact List.Perm.refl _
  | cons r rs ih =>
    exact (insertByDist_perm r (sortByDist rs)).trans (ih.cons r)

theorem insertByDist_ne_nil (r : Room) (l : List Room) :
    insertByDist r l ≠ [] := by
  intro h
  have h2 := (insertByDist_perm r l).length_eq
  rw [h] at h2
  simp at h2

/-- Inserting an element whose key is at most the current last key keeps the
last element: this is where stability of the sort shows. -/
theorem insertByDist_getLast? (r m : Room)
    (hle : r.distanceFromEntrance ≤ m.distanceFromEntrance) :
    ∀ l : List Room, l.getLast? = some m →
      (insertByDist r l).getLast? = some m := by
  intro l
  induction l with
  | nil => intro h; simp at h
  | cons s ss ih =>
    intro hlast
    unfold insertByDist
    by_cases h : r.distanceFromEntrance ≤ s.distanceFromEntrance
    · rw [if_pos h, List.getLast?_cons_cons]
      exact hlast
    · rw [if_neg h]
      cases ss with
      | nil =>
        have hsm : s = m := by simpa using hlast
        rw [hsm] at h
        exact absurd hle h
      | cons s2 ss2 =>
        rw [List.getLast?_cons_cons] at hlast
        rw [getLast?_cons_of_ne_nil s (insertByDist_ne_nil r (s2 :: ss2))]
        exact ih hlast

/-- An element whose key strictly dominates every current key is inserted at
the very end. -/
theorem insertByDist_append_of_lt (r : Room) :
    ∀ l : List Room,
      (∀ e ∈ l, e.distanceFromEntrance < r.distanceFromEntrance) →
      insertByDist r l = l ++ [r] := by
  intro l
  induction l with
  | nil => intro _; rfl
  | cons s ss ih =>
    intro hlt
    have h1 : ¬ r.distanceFromEntrance ≤ s.distanceFromEntrance :=
      not_le.2 (hlt s (List.mem_cons_self s ss))
    unfold insertByDist
    rw [if_neg h1, ih (fun e he => hlt e (List.mem_cons_of_mem s he))]
    rfl

/-- The stable-sort tie-break: the last element of the sorted list is the
element of the input that is last in input order among those of maximum key —
everything before it in the input has key `≤`, everything after it has key
`<`. -/
theorem sortByDist_last_spec :
    ∀ l : List Room, l ≠ [] →
      ∃ m pre post, l = pre ++ m :: post ∧
        (sortByDist l).getLast? = some m ∧
        (∀ d ∈ pre, d.distanceFromEntrance ≤ m.distanceFromEntrance) ∧
        (∀ d ∈ post, d.distanceFromEntrance < m.distanceFromEntrance) := by
  intro l
  induction l with
  | nil => intro h; exact absurd rfl h
  | cons x l ih =>
    intro _
    cases l with
    | nil =>
      refine ⟨x, [], [], rfl, ?_, by simp, by simp⟩
      rfl
    | cons y l2 =>
      obtain ⟨m, pre, post, hdec, hlast, hpre, hpost⟩ := ih (by simp)
      have hallm : ∀ d ∈ y :: l2,
          d.distanceFromEntrance ≤ m.distanceFromEntrance := by
        intro d hd
        rw [hdec] at hd
        rcases List.mem_append.1 hd with hp | hq
        · exact hpre d hp
        · rcases List.mem_cons.1 hq with rfl | hq2
          · exact le_rfl
          · exact le_of_lt (hpost d hq2)
      by_cases hx : m.distanceFromEntrance < x.distanceFromEntrance
      · refine ⟨x, [], y :: l2, rfl, ?_, by simp, ?_⟩
        · show (insertByDist x (sortByDist (y :: l2))).getLast? = some x
          rw [insertByDist_append_of_lt x _ ?_]
          · exact List.getLast?_concat _
          · intro e he
            have hmem : e ∈ y :: l2 := (sortByDist_perm (y :: l2)).mem_iff.1 he
            exact lt_of_le_of_lt (hallm e hmem) hx
        · intro d hd
          exact lt_of_le_of_lt (hallm d hd) hx
      · have hxm : x.distanceFromEntrance ≤ m.distanceFromEntrance :=
          not_lt.1 hx
        refine ⟨m, x :: pre, post, ?_, ?_, ?_, hpost⟩
        · rw [List.cons_append, hdec]
        · show (insertByDist x (sortByDist (y :: l2))).getLast? = some m
          exact insertByDist_getLast? x m hxm _ hlast
        · intro d hd
          rcases List.mem_cons.1 hd with rfl | hp
          · exact hxm
          · exact hpre d hp

/-! ### Lookup through the type-assignment mutations -/

theorem findRoom_setTypeAt_self {rooms : List Room} {p : Coord} {r : Room}
    (t : RoomType) (hfind : findRoom rooms p = some r) :
    findRoom (setTypeAt rooms p t) p = some { r with type := t } := by
  have hp := (findRoom_mem hfind).2
  have hx : r.x = p.1 := congrArg Prod.fst hp
  have hy : r.y = p.2 := congrArg Prod.snd hp
  rw [findRoom_setTypeAt, hfind, Option.map_some']
  unfold setTypeIf
  rw [if_pos ⟨hx, hy⟩]

theorem findRoom_setTypeAt_ne {rooms : List Room} {p c : Coord}
    (t : RoomType) (hne : c ≠ p) :
    findRoom (setTypeAt rooms p t) c = findRoom rooms c := by
  rw [findRoom_setTypeAt]
  cases hf : findRoom rooms c with
  | none => rfl
  | some r =>
    rw [Option.map_some']
    have hp := (findRoom_mem hf).2
    have hcond : ¬ (r.x = p.1 ∧ r.y = p.2) := by
      rintro ⟨hx, hy⟩
      apply hne
      rw [← hp]
      simp [Room.pos, Prod.ext_iff, hx, hy]
    unfold setTypeIf
    rw [if_neg hcond]

/-- The picked type always comes from the special list (no positivity of the
random variate needed). -/
theorem getRandomType_ok_mem {reg : Registry} {d : Nat} {occ : OccCounts}
    {size : Nat} {u : Rat} {t : RoomType}
    (h : reg.getRandomType d occ size u = .ok t) :
    t ∈ reg.listSpecial.map (·.2) := by
  cases hev : evalWeights reg d occ size with
  | error e =>
    rw [Registry.getRandomType, hev] at h
    exact absurd h (by simp)
  | ok out =>
    rw [Registry.getRandomType, hev] at h
    dsimp only at h
    obtain ⟨total, _, _, hget⟩ := choicesW_ok_iff.1 h
    rw [List.get?_map] at hget
    obtain ⟨p, hpj, hpt⟩ := Option.map_eq_some'.1 hget
    have hpmem : p ∈ out := List.get?_mem hpj
    have hmem := evalWeightsGo_mem reg d occ size
      (fun q => q.1 ∈ reg.listSpecial.map (·.2))
      (fun t' ht' f _ => ht') _ [] out (fun a ha => ha) (by simp) hev p hpmem
    rw [← hpt]
    exact hmem

/-- Rooms at positions no dead end of the list occupies are not looked at by
the assignment loop. -/
theorem assignLoop_untouched {reg : Registry} {size : Nat} {us : Nat → Rat}
    (p : Coord) :
    ∀ (des rooms : List Room) (uIdx : Nat) (occ : OccCounts)
      (out : List Room × OccCounts),
      assignLoop reg size us rooms uIdx des occ = .ok out →
      (∀ de ∈ des, (de.x, de.y) ≠ p) →
      findRoom out.1 p = findRoom rooms p := by
  intro des
  induction des with
  | nil =>
    intro rooms uIdx occ out h _
    simp only [assignLoop] at h
    injection h with h
    subst h
    rfl
  | cons de rest ih =>
    intro rooms uIdx occ out h hq
    simp only [assignLoop] at h
    cases hgt : reg.getRandomType de.distanceFromEntrance occ size (us uIdx) with
    | error e =>
      rw [hgt] at h
      exact absurd h (by simp)
    | ok t =>
      rw [hgt] at h
      rw [ih _ _ _ _ h (fun d hd => hq d (List.mem_cons_of_mem de hd))]
      exact findRoom_setTypeAt_ne t (hq de (List.mem_cons_self de rest)).symm

/-- The assignment loop preserves a "has type `stT` exactly at these
positions" invariant, provided `stT` is not special (so never assigned) and
no processed dead end sits at one of those positions. -/
theorem assignLoop_type_iff {reg : Registry} {size : Nat} {us : Nat → Rat}
    {stT : RoomType} (hsp : ∀ t ∈ reg.listSpecial.map (·.2), t ≠ stT)
    (q : Coord → Prop) :
    ∀ (des rooms : List Room) (uIdx : Nat) (occ : OccCounts)
      (out : List Room × OccCounts),
      assignLoop reg size us rooms uIdx des occ = .ok out →
      (∀ de ∈ des, ¬ q (de.x, de.y)) →
      (∀ r ∈ rooms, (r.type = stT ↔ q r.pos)) →
      ∀ r ∈ out.1, (r.type = stT ↔ q r.pos) := by
  intro des
  induction des with
  | nil =>
    intro rooms uIdx occ out h _ hiff
    simp only [assignLoop] at h
    injection h with h
    subst h
    exact hiff
  | cons de rest ih =>
    intro rooms uIdx occ out h hq hiff
    simp only [assignLoop] at h
    cases hgt : reg.getRandomType de.distanceFromEntrance occ size (us uIdx) with
    | error e =>
      rw [hgt] at h
      exact absurd h (by simp)
    | ok t =>
      rw [hgt] at h
      have ht : t ≠ stT := hsp t (getRandomType_ok_mem hgt)
      have hiff2 : ∀ r ∈ setTypeAt rooms (de.x, de.y) t,
          (r.type = stT ↔ q r.pos) := by
        intro r hr
        unfold setTypeAt at hr
        obtain ⟨r0, hr0, rfl⟩ := List.mem_map.1 hr
        unfold setTypeIf
        by_cases hc : r0.x = (de.x, de.y).1 ∧ r0.y = (de.x, de.y).2
        · rw [if_pos hc]
          constructor
          · intro habs
            exact absurd habs ht
          · intro hqpos
            exfalso
            apply hq de (List.mem_cons_self de rest)
            have hq2 : q (r0.x, r0.y) := hqpos
            obtain ⟨hcx, hcy⟩ := hc
            rw [hcx, hcy] at hq2
            exact hq2
        · rw [if_neg hc]
          exact hiff r0 hr0
      exact ih _ _ _ _ h (fun d hd => hq d (List.mem_cons_of_mem de hd)) hiff2

/-- Every room present at some point of the growth loop persists to the end
with the same position, type and distance and a neighbor count that can only
have grown. -/
theorem growLoop_persist {basic : RoomType} {size : Nat} :
    ∀ (attempts : List (Nat × List Nat)) (rooms : List Room) (i : Nat)
      (out : List Room), growLoop basic size rooms i attempts = some out →
      ∀ p r, findRoom rooms p = some r → ∃ r2, findRoom out p = some r2 ∧
        r.neighborCount ≤ r2.neighborCount ∧
        r2.distanceFromEntrance = r.distanceFromEntrance ∧
        r2.type = r.type ∧ r2.x = r.x ∧ r2.y = r.y := by
  intro attempts
  induction attempts with
  | nil =>
    intro rooms i out h p r hf
    simp only [growLoop] at h
    by_cases hi : i < size
    · rw [if_pos hi] at h
      exact absurd h (by simp)
    · rw [if_neg hi] at h
      injection h with h
      subst h
      exact ⟨r, hf, le_rfl, rfl, rfl, rfl, rfl⟩
  | cons a rest ih =>
    obtain ⟨k, ds⟩ := a
    intro rooms i out h p r hf
    simp only [growLoop] at h
    by_cases hi : i < size
    · rw [if_pos hi] at h
      cases hg : growStep basic rooms k ds with
      | some rooms2 =>
        rw [hg] at h
        obtain ⟨r1, hf1, hle1, hd1, ht1, hx1, hy1⟩ :=
          growStep_some_persist hg p r hf
        obtain ⟨r2, hf2, hle2, hd2, ht2, hx2, hy2⟩ :=
          ih rooms2 (i + 1) out h p r1 hf1
        exact ⟨r2, hf2, le_trans hle1 hle2, by rw [hd2, hd1],
          by rw [ht2, ht1], by rw [hx2, hx1], by rw [hy2, hy1]⟩
      | none =>
        rw [hg] at h
        exact ih rooms i out h p r hf
    · rw [if_neg hi] at h
      injection h with h
      subst h
      exact ⟨r, hf, le_rfl, rfl, rfl, rfl, rfl⟩

theorem findRoom_initRooms_origin (basic : RoomType) (seedDirs : List Nat)
    (b : Nat) :
    findRoom (initRooms basic seedDirs b) (0, 0) = some ⟨basic, 0, 0, b, 0⟩ := by
  unfold initRooms findRoom
  rw [List.find?_cons_of_pos _ (by simp)]

/-- Destructuring a successful `finalize` run into its intermediate data:
the entrance and stairs types looked up, the last sorted dead end, and the
assignment-loop equation over the shuffled remainder. -/
theorem finalize_spec {reg : Registry} {size : Nat} {rooms : List Room}
    {shufIdx : List Nat} {us : Nat → Rat} {out : List Room × OccCounts}
    (h : finalize reg size rooms shufIdx us = .ok out) :
    ∃ entT stT lastDE,
      reg.getType "Entrance" = .ok entT ∧
      reg.getType "Stairs" = .ok stT ∧
      (sortByDist ((setTypeAt rooms (0, 0) entT).filter
          (fun r => decide (r.neighborCount = 1)))).getLast? = some lastDE ∧
      assignLoop reg size us
        (setTypeAt (setTypeAt rooms (0, 0) entT) (lastDE.x, lastDE.y) stT) 0
        (shufIdx.filterMap (sortByDist ((setTypeAt rooms (0, 0) entT).filter
          (fun r => decide (r.neighborCount = 1)))).dropLast.get?) [] =
        .ok out := by
  unfold finalize at h
  cases he : reg.getType "Entrance" with
  | error e =>
    rw [he] at h
    exact absurd h (by simp)
  | ok entT =>
    rw [he] at h
    dsimp only at h
    cases hlast : (sortByDist ((setTypeAt rooms (0, 0) entT).filter
        (fun r => decide (r.neighborCount = 1)))).getLast? with
    | none =>
      rw [hlast] at h
      exact absurd h (by simp)
    | some lastDE =>
      rw [hlast] at h
      cases hst : reg.getType "Stairs" with
      | error e =>
        rw [hst] at h
        exact absurd h (by simp)
      | ok stT =>
        rw [hst] at h
        dsimp only at h
        exact ⟨entT, stT, lastDE, rfl, rfl, hlast, h⟩

theorem mem_filterMap_get? {α : Type _} {l : List α} {idx : List Nat} :
    ∀ x ∈ idx.filterMap l.get?, x ∈ l := by
  intro x hx
  obtain ⟨i, _, hg⟩ := List.mem_filterMap.1 hx
  exact List.get?_mem hg

/-- Filtering by a predicate of the skeleton entry commutes with skeleton
equality. -/
theorem skel_filter (q : Coord × Nat × Nat → Bool) :
    ∀ (l1 l2 : List Room), skel l1 = skel l2 →
      skel (l1.filter
          (fun r => q (r.pos, r.neighborCount, r.distanceFromEntrance))) =
        skel (l2.filter
          (fun r => q (r.pos, r.neighborCount, r.distanceFromEntrance))) := by
  intro l1
  induction l1 with
  | nil =>
    intro l2 h
    cases l2 with
    | nil => rfl
    | cons b l2' => exact absurd h (by simp [skel])
  | cons a l1' ih =>
    intro l2 h
    cases l2 with
    | nil => exact absurd h (by simp [skel])
    | cons b l2' =>
      unfold skel at h
      rw [List.map_cons, List.map_cons] at h
      injection h with h1 h2
      have h2' : skel l1' = skel l2' := h2
      have hq : q (a.pos, a.neighborCount, a.distanceFromEntrance) =
          q (b.pos, b.neighborCount, b.distanceFromEntrance) := congrArg q h1
      rw [List.filter_cons, List.filter_cons]
      rw [← hq]
      by_cases hb : q (a.pos, a.neighborCount, a.distanceFromEntrance) = true
      · rw [if_pos hb, if_pos hb]
        unfold skel
        simp only [List.map_cons]
        rw [h1]
        have h3 := ih l2' h2'
        unfold skel at h3
        rw [h3]
      · rw [if_neg hb, if_neg hb]
        exact ih l2' h2'

/-- Witness for C10 at the concrete demo generation. -/
theorem C10_distances_exact_witness :
    ([0, 1, 2, 3] : List Nat).Perm [0, 1, 2, 3] ∧
    ((∀ st ∈ growTrace basicT 5 (initRooms basicT [0, 1, 2, 3] (randint2to4 0))
        (randint2to4 0) demoAttempts,
      ∀ r ∈ st, PathTo st r.pos r.distanceFromEntrance ∧
        ∀ n, PathTo st r.pos n → r.distanceFromEntrance ≤ n) ∧
    (∀ rooms2 occ,
      dungeonInit progReg basicT 5 [0, 1, 2, 3] 0 demoAttempts [0]
          (fun _ => 0) = some (.ok (rooms2, occ)) →
      ∀ r ∈ rooms2, PathTo rooms2 r.pos r.distanceFromEntrance ∧
        ∀ n, PathTo rooms2 r.pos n → r.distanceFromEntrance ≤ n)) :=
  ⟨List.Perm.refl _,
    C10_distances_exact progReg basicT 5 [0, 1, 2, 3] 0 demoAttempts [0]
      (fun _ => 0) (List.Perm.refl _)⟩

/-! ### Claim C3: the stairs room -/

/-- C3: in every successfully completed generation (with the stairs type
distinct from the basic type, the entrance type and every special type, as
in the program's registry), exactly one room ends up with the stairs type;
it is a room whose `neighborCount` was `1` at assignment time, its distance
from the entrance is maximal among all such degree-1 rooms, and among the
equally distant degree-1 rooms the stable sort breaks the tie towards the
last in creation order: in the creation-ordered dead-end list the stairs
room is followed only by rooms of strictly smaller distance. -/
theorem C3_stairs_selection (reg : Registry) (basic : RoomType) (size : Nat)
    (seedDirs : List Nat) (kb : Nat) (attempts : List (Nat × List Nat))
    (shufIdx : List Nat) (us : Nat → Rat) (rooms2 : List Room)
    (occ : OccCounts) (stT : RoomType)
    (hperm : seedDirs.Perm [0, 1, 2, 3])
    (hst : reg.getType "Stairs" = .ok stT)
    (hbne : basic ≠ stT)
    (hentne : ∀ entT, reg.getType "Entrance" = .ok entT → entT ≠ stT)
    (hspne : ∀ t ∈ reg.listSpecial.map (·.2), t ≠ stT)
    (hgen : dungeonInit reg basic size seedDirs kb attempts shufIdx us =
      some (.ok (rooms2, occ))) :
    ∃ s ∈ rooms2, s.type = stT ∧ s.neighborCount = 1 ∧
      rooms2.countP (fun r => decide (r.type = stT)) = 1 ∧
      (∀ d ∈ rooms2, d.neighborCount = 1 →
        d.distanceFromEntrance ≤ s.distanceFromEntrance) ∧
      ∃ pre post,
        rooms2.filter (fun r => decide (r.neighborCount = 1)) =
          pre ++ s :: post ∧
        ∀ d ∈ post, d.distanceFromEntrance < s.distanceFromEntrance := by
  obtain ⟨grown, hgrow, hfin⟩ := dungeonInit_some hgen
  have hinv : Inv basic grown :=
    growLoop_inv attempts _ (randint2to4 kb) grown
      (initRooms_inv basic seedDirs kb hperm).1 hgrow
  obtain ⟨entT, stT', lastDE, he, hst', hlast, hassign⟩ := finalize_spec hfin
  rw [hst] at hst'
  injection hst' with hstT
  rw [← hstT] at hassign
  have hentT : entT ≠ stT := hentne entT he
  set r1 := setTypeAt grown (0, 0) entT with hr1def
  set deadEnds := r1.filter (fun r => decide (r.neighborCount = 1)) with hdeDef
  have hsk1 : skel r1 = skel grown := skel_setTypeAt grown (0, 0) entT
  have hsk2 : skel rooms2 = skel r1 := by
    have hskA : skel rooms2 =
        skel (setTypeAt r1 (lastDE.x, lastDE.y) stT) :=
      skel_assignLoop _ _ _ _ _ hassign
    rw [hskA, skel_setTypeAt]
  have hskg : skel rooms2 = skel grown := by rw [hsk2, hsk1]
  have hpos1 : r1.map Room.pos = grown.map Room.pos := skel_map_pos hsk1
  have hpos2 : rooms2.map Room.pos = grown.map Room.pos := skel_map_pos hskg
  have hnd1 : (r1.map Room.pos).Nodup := by
    rw [hpos1]
    exact hinv.nodup
  have hnd2 : (rooms2.map Room.pos).Nodup := by
    rw [hpos2]
    exact hinv.nodup
  have htypes1 : ∀ r ∈ r1, r.type ≠ stT := by
    intro r hr
    rw [hr1def] at hr
    unfold setTypeAt at hr
    obtain ⟨r0, hr0, rfl⟩ := List.mem_map.1 hr
    unfold setTypeIf
    split
    · exact hentT
    · rw [hinv.types r0 hr0]
      exact hbne
  have hlastMem : lastDE ∈ sortByDist deadEnds := by
    rw [← List.dropLast_append_getLast? lastDE hlast]
    exact List.mem_append.2 (Or.inr (List.mem_cons_self _ _))
  have hlastDE : lastDE ∈ deadEnds :=
    (sortByDist_perm deadEnds).mem_iff.1 hlastMem
  have hlastr1 : lastDE ∈ r1 := (List.mem_filter.1 hlastDE).1
  have hlastnc : lastDE.neighborCount = 1 := by
    have h2 := (List.mem_filter.1 hlastDE).2
    simpa using h2
  have hsortnd : ((sortByDist deadEnds).map Room.pos).Nodup := by
    have hsub : (deadEnds.map Room.pos).Sublist (r1.map Room.pos) :=
      (List.filter_sublist r1).map Room.pos
    have hdednd : (deadEnds.map Room.pos).Nodup := List.Nodup.sublist hsub hnd1
    exact (((sortByDist_perm deadEnds).map Room.pos).nodup_iff).2 hdednd
  have hrestne : ∀ d ∈ (sortByDist deadEnds).dropLast, d.pos ≠ lastDE.pos := by
    intro d hd hdp
    have hnd := hsortnd
    rw [← List.dropLast_append_getLast? lastDE hlast, List.map_append] at hnd
    obtain ⟨_, _, hdisj⟩ := List.nodup_append.1 hnd
    exact hdisj (List.mem_map_of_mem Room.pos hd) (by simp [hdp])
  have hshufne : ∀ de ∈ shufIdx.filterMap (sortByDist deadEnds).dropLast.get?,
      ¬ ((de.x, de.y) : Coord) = lastDE.pos := by
    intro de hde
    exact hrestne de (mem_filterMap_get? de hde)
  have hfind1 : findRoom r1 lastDE.pos = some lastDE :=
    findRoom_eq_some_of_mem hnd1 hlastr1
  have hbase : ∀ r ∈ setTypeAt r1 (lastDE.x, lastDE.y) stT,
      (r.type = stT ↔ r.pos = lastDE.pos) := by
    intro r hr
    unfold setTypeAt at hr
    obtain ⟨r0, hr0, rfl⟩ := List.mem_map.1 hr
    unfold setTypeIf
    by_cases hc : r0.x = (lastDE.x, lastDE.y).1 ∧ r0.y = (lastDE.x, lastDE.y).2
    · rw [if_pos hc]
      constructor
      · intro _
        have hcx : r0.x = lastDE.x := hc.1
        have hcy : r0.y = lastDE.y := hc.2
        show ((r0.x, r0.y) : Coord) = lastDE.pos
        rw [hcx, hcy]
        rfl
      · intro _
        rfl
    · rw [if_neg hc]
      constructor
      · intro habs
        exact absurd habs (htypes1 r0 hr0)
      · intro hp
        exfalso
        apply hc
        exact ⟨congrArg Prod.fst hp, congrArg Prod.snd hp⟩
  have hiff2 : ∀ r ∈ rooms2, (r.type = stT ↔ r.pos = lastDE.pos) :=
    assignLoop_type_iff hspne (fun c => c = lastDE.pos) _ _ 0 [] (rooms2, occ)
      hassign hshufne hbase
  have hfind2 : findRoom (setTypeAt r1 (lastDE.x, lastDE.y) stT) lastDE.pos =
      some { lastDE with type := stT } := findRoom_setTypeAt_self stT hfind1
  have huntouched : findRoom rooms2 lastDE.pos =
      findRoom (setTypeAt r1 (lastDE.x, lastDE.y) stT) lastDE.pos :=
    assignLoop_untouched lastDE.pos _ _ 0 [] (rooms2, occ) hassign hshufne
  have hfind3 : findRoom rooms2 lastDE.pos = some { lastDE with type := stT } :=
    huntouched.trans hfind2
  obtain ⟨hsmem, hspos⟩ := findRoom_mem hfind3
  obtain ⟨m, preD, postD, hdeDec, hlastm, hpreD, hpostD⟩ :=
    sortByDist_last_spec deadEnds (List.ne_nil_of_mem hlastDE)
  have hm : m = lastDE := by
    rw [hlast] at hlastm
    injection hlastm with hm
    exact hm.symm
  rw [hm] at hdeDec hpreD hpostD
  refine ⟨{ lastDE with type := stT }, hsmem, rfl, hlastnc, ?_, ?_, ?_⟩
  · have hnd2' : rooms2.Nodup := List.Nodup.of_map Room.pos hnd2
    have hp : ∀ v ∈ rooms2, ((fun r => decide (r.type = stT)) v = true ↔
        v ∈ [{ lastDE with type := stT }]) := by
      intro v hv
      simp only [decide_eq_true_eq, List.mem_singleton]
      constructor
      · intro hvt
        have hvp : v.pos = lastDE.pos := (hiff2 v hv).1 hvt
        exact pos_inj_of_nodup hnd2 v hv _ hsmem (by rw [hvp, hspos])
      · intro hveq
        rw [hveq]
    exact countP_eq_length_of_mem_iff hp hnd2' (List.nodup_singleton _)
      (fun v hv => by rw [List.mem_singleton.1 hv]; exact hsmem)
  · intro d hd hdnc
    obtain ⟨g, hg, _, hgn, hgd⟩ := skel_mem hsk2 d hd
    have hgde : g ∈ deadEnds := by
      rw [hdeDef]
      exact List.mem_filter.2 ⟨hg, by simp [hgn, hdnc]⟩
    have hdg : g.distanceFromEntrance ≤ lastDE.distanceFromEntrance := by
      rw [hdeDec] at hgde
      rcases List.mem_append.1 hgde with hp | hq
      · exact hpreD g hp
      · rcases List.mem_cons.1 hq with rfl | hq2
        · exact le_rfl
        · exact le_of_lt (hpostD g hq2)
    rw [← hgd]
    exact hdg
  · have hskF : skel (rooms2.filter (fun r => decide (r.neighborCount = 1))) =
        skel deadEnds := by
      have hqeq : (fun r : Room => decide (r.neighborCount = 1)) =
          fun r : Room => (fun e : Coord × Nat × Nat => decide (e.2.1 = 1))
            (r.pos, r.neighborCount, r.distanceFromEntrance) := rfl
      rw [hdeDef, hqeq]
      exact skel_filter (fun e => decide (e.2.1 = 1)) rooms2 r1 hsk2
    have hmap2 : (rooms2.filter (fun r => decide (r.neighborCount = 1))).map
        (fun r => (r.pos, r.neighborCount, r.distanceFromEntrance)) =
        skel preD ++
          (lastDE.pos, lastDE.neighborCount, lastDE.distanceFromEntrance) ::
          skel postD := by
      show skel _ = _
      rw [hskF, hdeDec]
      unfold skel
      rw [List.map_append, List.map_cons]
    obtain ⟨pre2, s2, post2, hdec2, _, hs2, hpost2⟩ :=
      map_eq_append_cons (fun r : Room => (r.pos, r.neighborCount,
        r.distanceFromEntrance)) (rooms2.filter
        (fun r => decide (r.neighborCount = 1))) (skel preD)
        ((lastDE.pos, lastDE.neighborCount, lastDE.distanceFromEntrance))
        (skel postD) hmap2
    have hs2memF : s2 ∈ rooms2.filter (fun r => decide (r.neighborCount = 1)) := by
      rw [hdec2]
      exact List.mem_append.2 (Or.inr (List.mem_cons_self _ _))
    have hs2mem : s2 ∈ rooms2 := (List.mem_filter.1 hs2memF).1
    have hs2pos : s2.pos = lastDE.pos := by
      have h1 : lastDE.pos = s2.pos := congrArg Prod.fst hs2
      exact h1.symm
    have hs2eq : s2 = { lastDE with type := stT } :=
      pos_inj_of_nodup hnd2 s2 hs2mem _ hsmem (by rw [hs2pos, hspos])
    refine ⟨pre2, post2, ?_, ?_⟩
    · rw [hdec2, hs2eq]
    · intro d hd
      have hpost2' : skel post2 = skel postD := hpost2.symm
      obtain ⟨g2, hg2, _, _, hg2d⟩ := skel_mem hpost2' d hd
      rw [← hg2d]
      exact hpostD g2 hg2

/-- Witness for C3 at the concrete demo generation: the stairs room is the
room at `(0, 4)` with distance 4. -/
theorem C3_stairs_selection_witness :
    (([0, 1, 2, 3] : List Nat).Perm [0, 1, 2, 3] ∧
      progReg.getType "Stairs" = .ok ⟨"Stairs", [255, 0, 0]⟩ ∧
      basicT ≠ (⟨"Stairs", [255, 0, 0]⟩ : RoomType)) ∧
    (∃ s ∈ demoRooms, s.type = (⟨"Stairs", [255, 0, 0]⟩ : RoomType) ∧
      s.neighborCount = 1 ∧
      demoRooms.countP
        (fun r => decide (r.type = (⟨"Stairs", [255, 0, 0]⟩ : RoomType))) = 1 ∧
      (∀ d ∈ demoRooms, d.neighborCount = 1 →
        d.distanceFromEntrance ≤ s.distanceFromEntrance) ∧
      ∃ pre post,
        demoRooms.filter (fun r => decide (r.neighborCount = 1)) =
          pre ++ s :: post ∧
        ∀ d ∈ post, d.distanceFromEntrance < s.distanceFromEntrance) :=
  ⟨⟨List.Perm.refl _, rfl, by decide⟩,
    C3_stairs_selection progReg basicT 5 [0, 1, 2, 3] 0 demoAttempts [0]
      (fun _ => 0) demoRooms demoOcc ⟨"Stairs", [255, 0, 0]⟩ (List.Perm.refl _)
      rfl (by decide)
      (fun entT h => by injection h with h2; rw [← h2]; decide)
      (by decide) demo_run⟩

/-! ### Claim C7: the entrance and the seed step -/

/-- C7: in every completed generation the entrance sits at `(0, 0)` and ends
up with the registered "Entrance" type and distance 0; the seed step places
`randint(2, 4)` basic rooms (one per taken direction), each adjacent to the
entrance with `distanceFromEntrance = 1` and `neighborCount = 1`, while the
entrance's `neighborCount` is initialised to the number of seeds placed
(the head of the seed state). -/
theorem C7_entrance_and_seeds (reg : Registry) (basic : RoomType) (size : Nat)
    (seedDirs : List Nat) (kb : Nat) (attempts : List (Nat × List Nat))
    (shufIdx : List Nat) (us : Nat → Rat) (rooms2 : List Room)
    (occ : OccCounts) (entT : RoomType)
    (hperm : seedDirs.Perm [0, 1, 2, 3])
    (hent : reg.getType "Entrance" = .ok entT)
    (hgen : dungeonInit reg basic size seedDirs kb attempts shufIdx us =
      some (.ok (rooms2, occ))) :
    (2 ≤ randint2to4 kb ∧ randint2to4 kb ≤ 4) ∧
    (initRooms basic seedDirs (randint2to4 kb)).head? =
      some ⟨basic, 0, 0, randint2to4 kb, 0⟩ ∧
    (initRooms basic seedDirs (randint2to4 kb)).tail.length = randint2to4 kb ∧
    (∀ r ∈ (initRooms basic seedDirs (randint2to4 kb)).tail,
      r.type = basic ∧ r.distanceFromEntrance = 1 ∧ r.neighborCount = 1 ∧
      adj (0, 0) r.pos) ∧
    (∃ rE, findRoom rooms2 (0, 0) = some rE ∧ rE.type = entT ∧
      rE.distanceFromEntrance = 0) := by
  refine ⟨⟨randint2to4_ge kb, randint2to4_le kb⟩, rfl, ?_, ?_, ?_⟩
  · have hlen := (initRooms_inv basic seedDirs kb hperm).2
    simp [List.length_tail, hlen]
  · intro r hr
    have htl : (initRooms basic seedDirs (randint2to4 kb)).tail =
        ((seedDirs.take (randint2to4 kb)).filterMap dirNumToVector).map
          (fun v => ⟨basic, v.1, v.2, 1, 1⟩) := rfl
    rw [htl] at hr
    obtain ⟨v, hv, rfl⟩ := List.mem_map.1 hr
    obtain ⟨k, _, hkv⟩ := List.mem_filterMap.1 hv
    refine ⟨rfl, rfl, rfl, ?_⟩
    exact (dirVectors_adj_origin v (mem_dirVectors_of_some hkv)).1
  · obtain ⟨grown, hgrow, hfin⟩ := dungeonInit_some hgen
    have hinv : Inv basic grown :=
      growLoop_inv attempts _ (randint2to4 kb) grown
        (initRooms_inv basic seedDirs kb hperm).1 hgrow
    obtain ⟨entT', stT, lastDE, he, hst, hlast, hassign⟩ := finalize_spec hfin
    rw [hent] at he
    injection he with hentT'
    rw [← hentT'] at hlast hassign
    obtain ⟨g0, hg0find, hg0nc, hg0dist, _, _, _⟩ :=
      growLoop_persist attempts _ (randint2to4 kb) grown hgrow (0, 0) _
        (findRoom_initRooms_origin basic seedDirs (randint2to4 kb))
    have hg0nc2 : 2 ≤ g0.neighborCount := le_trans (randint2to4_ge kb) hg0nc
    set r1 := setTypeAt grown (0, 0) entT with hr1def
    have hsk1 : skel r1 = skel grown := skel_setTypeAt grown (0, 0) entT
    have hnd1 : (r1.map Room.pos).Nodup := by
      rw [skel_map_pos hsk1]
      exact hinv.nodup
    have hfind1 : findRoom r1 (0, 0) = some { g0 with type := entT } :=
      findRoom_setTypeAt_self entT hg0find
    have horigne : ∀ d ∈ r1.filter (fun r => decide (r.neighborCount = 1)),
        d.pos ≠ ((0 : Int), (0 : Int)) := by
      intro d hd hdp
      obtain ⟨hdr1, hdnc'⟩ := List.mem_filter.1 hd
      have hdnc : d.neighborCount = 1 := by simpa using hdnc'
      have hdeq : d = { g0 with type := entT } := by
        have hfd : findRoom r1 d.pos = some d := findRoom_eq_some_of_mem hnd1 hdr1
        rw [hdp, hfind1] at hfd
        injection hfd with hfd
        exact hfd.symm
      rw [hdeq] at hdnc
      have hg0n : g0.neighborCount = 1 := hdnc
      omega
    have hlastDE : lastDE ∈ r1.filter (fun r => decide (r.neighborCount = 1)) := by
      have hmemS : lastDE ∈
          sortByDist (r1.filter (fun r => decide (r.neighborCount = 1))) := by
        rw [← List.dropLast_append_getLast? lastDE hlast]
        exact List.mem_append.2 (Or.inr (List.mem_cons_self _ _))
      exact (sortByDist_perm _).mem_iff.1 hmemS
    have hlastpos : ((lastDE.x, lastDE.y) : Coord) ≠ ((0 : Int), (0 : Int)) :=
      horigne lastDE hlastDE
    have hshufne : ∀ de ∈ shufIdx.filterMap
        (sortByDist (r1.filter
          (fun r => decide (r.neighborCount = 1)))).dropLast.get?,
        ((de.x, de.y) : Coord) ≠ ((0 : Int), (0 : Int)) := by
      intro de hde
      have hdeS : de ∈ sortByDist (r1.filter
          (fun r => decide (r.neighborCount = 1))) :=
        (List.dropLast_sublist _).subset (mem_filterMap_get? de hde)
      exact horigne de ((sortByDist_perm _).mem_iff.1 hdeS)
    have hfind2 : findRoom (setTypeAt r1 (lastDE.x, lastDE.y) stT) (0, 0) =
        findRoom r1 (0, 0) := findRoom_setTypeAt_ne stT (Ne.symm hlastpos)
    have huntouched : findRoom rooms2 ((0 : Int), (0 : Int)) =
        findRoom (setTypeAt r1 (lastDE.x, lastDE.y) stT) (0, 0) :=
      assignLoop_untouched (0, 0) _ _ 0 [] (rooms2, occ) hassign hshufne
    refine ⟨{ g0 with type := entT }, ?_, rfl, ?_⟩
    · rw [huntouched, hfind2, hfind1]
    · show g0.distanceFromEntrance = 0
      rw [hg0dist]

/-- Witness for C7 at the concrete demo generation. -/
theorem C7_entrance_and_seeds_witness :
    (([0, 1, 2, 3] : List Nat).Perm [0, 1, 2, 3] ∧
      progReg.getType "Entrance" = .ok ⟨"Entrance", [255, 255, 0]⟩) ∧
    ((2 ≤ randint2to4 0 ∧ randint2to4 0 ≤ 4) ∧
      (initRooms basicT [0, 1, 2, 3] (randint2to4 0)).head? =
        some ⟨basicT, 0, 0, randint2to4 0, 0⟩ ∧
      (initRooms basicT [0, 1, 2, 3] (randint2to4 0)).tail.length =
        randint2to4 0 ∧
      (∀ r ∈ (initRooms basicT [0, 1, 2, 3] (randint2to4 0)).tail,
        r.type = basicT ∧ r.distanceFromEntrance = 1 ∧ r.neighborCount = 1 ∧
        adj (0, 0) r.pos) ∧
      (∃ rE, findRoom demoRooms (0, 0) = some rE ∧
        rE.type = (⟨"Entrance", [255, 255, 0]⟩ : RoomType) ∧
        rE.distanceFromEntrance = 0)) :=
  ⟨⟨List.Perm.refl _, rfl⟩,
    C7_entrance_and_seeds progReg basicT 5 [0, 1, 2, 3] 0 demoAttempts [0]
      (fun _ => 0) demoRooms demoOcc ⟨"Entrance", [255, 255, 0]⟩
      (List.Perm.refl _) rfl demo_run⟩

end MITD
